import Mathlib

/-!
Verification development for the duty-schedule analyzer.

The analyzer ingests timestamped DutyOn/DutyOff swipe rows
(columns ID, Name, Status, DateTime), reconstructs per-employee/per-day
work sessions by pairing the earliest DutyOn with the latest DutyOff of
each (name, calendar-date) group, and derives per-date / per-employee
aggregate tables (`duty_analyzer.py`, `dashboard.py`,
`employee_lookup.py`, `create_html_dashboard.py`).

Modelling conventions:
* a pandas `DateTime` value is embedded as a calendar `Date` plus the
  second-of-day (`df['Date']` / `df['Time']`);
* `sort_values('DateTime')` is embedded as an insertion sort by the
  (date, second) order; the code never depends on how ties between
  equal timestamps are broken, and the theorems below prove the
  outputs are invariant under the choice of sorted permutation;
* Python floats are embedded as exact rationals; `round(hours, 2)`
  stores hundredths of an hour as an integer (`workHoursC`), i.e. the
  rounded value is `workHoursC / 100`.  A whole-second duration hits
  the rounding boundary `x.xx5` exactly when its seconds are ≡ 18
  (mod 36); there the program rounds the nearest *double*, which can
  fall on either side of the boundary (e.g. 54 s is written as 0.01,
  not 0.02), so the exact-rounding embedding is faithful only away
  from these ties.  Statements about the written value therefore carry
  the tie-exclusion hypothesis; see `workHoursCenti`.
-/

namespace DutySched

/-- Calendar date, the value of `df['DateTime'].dt.date`. -/
structure Date where
  year : Nat
  month : Nat
  day : Nat
deriving DecidableEq, Repr

/-- One parsed duty row: `{ID, Name, Status, DateTime}` with the
timestamp split into its calendar date and second-of-day. -/
structure Event where
  id : Nat
  name : String
  status : String
  date : Date
  sec : Nat
deriving DecidableEq, Repr

/-- Lexicographic order on calendar dates (Python `date` comparison). -/
def dateLe (a b : Date) : Prop :=
  a.year < b.year ∨
    (a.year = b.year ∧ (a.month < b.month ∨ (a.month = b.month ∧ a.day ≤ b.day)))

/-- Strict lexicographic order on calendar dates. -/
def dateLt (a b : Date) : Prop :=
  a.year < b.year ∨
    (a.year = b.year ∧ (a.month < b.month ∨ (a.month = b.month ∧ a.day < b.day)))

instance (a b : Date) : Decidable (dateLe a b) := by
  unfold dateLe; infer_instance

instance (a b : Date) : Decidable (dateLt a b) := by
  unfold dateLt; infer_instance

theorem dateLe_total (a b : Date) : dateLe a b ∨ dateLe b a := by
  unfold dateLe; omega

theorem dateLe_trans {a b c : Date} (h1 : dateLe a b) (h2 : dateLe b c) : dateLe a c := by
  unfold dateLe at *; omega

theorem dateLe_antisymm {a b : Date} (h1 : dateLe a b) (h2 : dateLe b a) : a = b := by
  have h3 : a.year = b.year ∧ a.month = b.month ∧ a.day = b.day := by
    unfold dateLe at *; omega
  cases a; cases b; simp_all

theorem dateLt_irrefl (a : Date) : ¬ dateLt a a := by
  unfold dateLt; omega

theorem dateLt_of_not (a b : Date) (h : ¬ dateLt a b) (hne : a ≠ b) : dateLt b a := by
  have h3 : ¬ (a.year = b.year ∧ a.month = b.month ∧ a.day = b.day) := by
    intro hc
    exact hne (by cases a; cases b; simp_all)
  unfold dateLt at *
  omega

/-- Order on events used by `sort_values('DateTime')`: date, then
second-of-day. -/
def dtLe (a b : Event) : Prop :=
  dateLt a.date b.date ∨ (a.date = b.date ∧ a.sec ≤ b.sec)

instance (a b : Event) : Decidable (dtLe a b) := by
  unfold dtLe; infer_instance

theorem dtLe_total (a b : Event) : dtLe a b ∨ dtLe b a := by
  unfold dtLe
  by_cases hd : a.date = b.date
  · rcases Nat.le_total a.sec b.sec with h | h
    · exact Or.inl (Or.inr ⟨hd, h⟩)
    · exact Or.inr (Or.inr ⟨hd.symm, h⟩)
  · by_cases hlt : dateLt a.date b.date
    · exact Or.inl (Or.inl hlt)
    · exact Or.inr (Or.inl (dateLt_of_not _ _ hlt hd))

theorem dateLt_trans {a b c : Date} (h1 : dateLt a b) (h2 : dateLt b c) : dateLt a c := by
  unfold dateLt at *; omega

theorem dtLe_trans {a b c : Event} (h1 : dtLe a b) (h2 : dtLe b c) : dtLe a c := by
  unfold dtLe at *
  rcases h1 with h1 | ⟨he1, hs1⟩
  · rcases h2 with h2 | ⟨he2, hs2⟩
    · exact Or.inl (dateLt_trans h1 h2)
    · exact Or.inl (he2 ▸ h1)
  · rcases h2 with h2 | ⟨he2, hs2⟩
    · exact Or.inl (he1 ▸ h2)
    · exact Or.inr ⟨he1.trans he2, hs1.trans hs2⟩

/-- Lexicographic comparison of character lists by code point:
Python string comparison. -/
def charListLe : List Char → List Char → Bool
  | [], _ => true
  | _ :: _, [] => false
  | a :: as, b :: bs =>
    if a.toNat < b.toNat then true
    else if b.toNat < a.toNat then false
    else charListLe as bs

/-- Python `sorted` order on names (lexicographic by code point). -/
def strLe (a b : String) : Prop := charListLe a.data b.data = true

instance (a b : String) : Decidable (strLe a b) := by
  unfold strLe; infer_instance

theorem charListLe_total (as bs : List Char) : charListLe as bs = true ∨ charListLe bs as = true := by
  induction as generalizing bs with
  | nil => exact Or.inl rfl
  | cons a as ih =>
    cases bs with
    | nil => exact Or.inr rfl
    | cons b bs =>
      simp only [charListLe]
      rcases Nat.lt_trichotomy a.toNat b.toNat with h | h | h
      · left; simp [h]
      · have h1 : ¬ a.toNat < b.toNat := by omega
        have h2 : ¬ b.toNat < a.toNat := by omega
        simp only [h1, h2, if_false, if_true, ite_false, ite_true]
        simpa [h1, h2] using ih bs
      · right; simp [h]

theorem charListLe_trans {as bs cs : List Char}
    (h1 : charListLe as bs = true) (h2 : charListLe bs cs = true) :
    charListLe as cs = true := by
  induction as generalizing bs cs with
  | nil => rfl
  | cons a as ih =>
    cases bs with
    | nil => simp [charListLe] at h1
    | cons b bs =>
      cases cs with
      | nil => simp [charListLe] at h2
      | cons c cs =>
        simp only [charListLe] at h1 h2 ⊢
        rcases Nat.lt_trichotomy a.toNat b.toNat with hab | hab | hab
        · rcases Nat.lt_trichotomy b.toNat c.toNat with hbc | hbc | hbc
          · simp [Nat.lt_trans hab hbc]
          · simp [hbc ▸ hab]
          · simp only [if_pos hab] at h1
            by_cases hca : a.toNat < c.toNat
            · simp [hca]
            · exfalso
              simp only [if_neg (by omega : ¬ b.toNat < c.toNat), if_pos hbc] at h2
              exact absurd h2 (by simp)
        · rcases Nat.lt_trichotomy b.toNat c.toNat with hbc | hbc | hbc
          · simp [hab ▸ hbc]
          · have hac : ¬ a.toNat < c.toNat := by omega
            have hca : ¬ c.toNat < a.toNat := by omega
            simp only [if_neg (by omega : ¬ a.toNat < b.toNat),
              if_neg (by omega : ¬ b.toNat < a.toNat)] at h1
            simp only [if_neg (by omega : ¬ b.toNat < c.toNat),
              if_neg (by omega : ¬ c.toNat < b.toNat)] at h2
            simp only [if_neg hac, if_neg hca]
            exact ih h1 h2
          · exfalso
            simp only [if_neg (by omega : ¬ b.toNat < c.toNat), if_pos hbc] at h2
            exact absurd h2 (by simp)
        · exfalso
          simp only [if_neg (by omega : ¬ a.toNat < b.toNat), if_pos hab] at h1
          exact absurd h1 (by simp)

theorem char_toNat_inj {a b : Char} (h : a.toNat = b.toNat) : a = b := by
  apply Char.eq_of_val_eq
  apply UInt32.eq_of_toBitVec_eq
  exact BitVec.eq_of_toNat_eq h

theorem charListLe_antisymm {as bs : List Char}
    (h1 : charListLe as bs = true) (h2 : charListLe bs as = true) : as = bs := by
  induction as generalizing bs with
  | nil =>
    cases bs with
    | nil => rfl
    | cons b bs => simp [charListLe] at h2
  | cons a as ih =>
    cases bs with
    | nil => simp [charListLe] at h1
    | cons b bs =>
      simp only [charListLe] at h1 h2
      rcases Nat.lt_trichotomy a.toNat b.toNat with hab | hab | hab
      · exfalso
        simp only [if_neg (by omega : ¬ b.toNat < a.toNat), if_pos hab] at h2
        exact absurd h2 (by simp)
      · have h1' : charListLe as bs = true := by
          simpa [if_neg (by omega : ¬ a.toNat < b.toNat),
            if_neg (by omega : ¬ b.toNat < a.toNat)] using h1
        have h2' : charListLe bs as = true := by
          simpa [if_neg (by omega : ¬ a.toNat < b.toNat),
            if_neg (by omega : ¬ b.toNat < a.toNat)] using h2
        rw [char_toNat_inj hab, ih h1' h2']
      · exfalso
        simp only [if_neg (by omega : ¬ a.toNat < b.toNat), if_pos hab] at h1
        exact absurd h1 (by simp)

theorem strLe_total (a b : String) : strLe a b ∨ strLe b a := charListLe_total a.data b.data

theorem strLe_trans {a b c : String} (h1 : strLe a b) (h2 : strLe b c) : strLe a c :=
  charListLe_trans h1 h2

theorem strLe_antisymm {a b : String} (h1 : strLe a b) (h2 : strLe b a) : a = b :=
  congrArg String.mk (charListLe_antisymm h1 h2)

/-- Insert into a sorted list: one step of the insertion sort that
embeds `sort_values` / Python `sorted`. -/
def insertLe (r : α → α → Prop) [DecidableRel r] (a : α) : List α → List α
  | [] => [a]
  | b :: l => if r a b then a :: b :: l else b :: insertLe r a l

/-- Insertion sort embedding `sort_values` / Python `sorted`: produces
a sorted permutation of the input. -/
def sortLe (r : α → α → Prop) [DecidableRel r] : List α → List α
  | [] => []
  | a :: l => insertLe r a (sortLe r l)

theorem insertLe_perm (r : α → α → Prop) [DecidableRel r] (a : α) (l : List α) :
    List.Perm (insertLe r a l) (a :: l) := by
  induction l with
  | nil => exact List.Perm.refl _
  | cons b l ih =>
    simp only [insertLe]
    by_cases h : r a b
    · simp only [if_pos h]; exact List.Perm.refl _
    · simp only [if_neg h]
      exact (ih.cons b).trans (List.Perm.swap a b l)

theorem sortLe_perm (r : α → α → Prop) [DecidableRel r] (l : List α) :
    List.Perm (sortLe r l) l := by
  induction l with
  | nil => exact List.Perm.refl _
  | cons a l ih =>
    simp only [sortLe]
    exact (insertLe_perm r a (sortLe r l)).trans (ih.cons a)

theorem insertLe_pairwise (r : α → α → Prop) [DecidableRel r]
    (htot : ∀ a b, r a b ∨ r b a) (htrans : ∀ {a b c}, r a b → r b c → r a c)
    (a : α) (l : List α)
    (hl : l.Pairwise r) : (insertLe r a l).Pairwise r := by
  induction l with
  | nil => simp [insertLe]
  | cons b l ih =>
    rcases List.pairwise_cons.mp hl with ⟨hb, hl'⟩
    simp only [insertLe]
    by_cases h : r a b
    · simp only [if_pos h]
      refine List.pairwise_cons.mpr ⟨?_, hl⟩
      intro x hx
      rcases List.mem_cons.mp hx with hx | hx
      · exact hx ▸ h
      · exact htrans h (hb x hx)
    · simp only [if_neg h]
      refine List.pairwise_cons.mpr ⟨?_, ih hl'⟩
      intro x hx
      have hx' : x ∈ a :: l := (insertLe_perm r a l).mem_iff.mp hx
      rcases List.mem_cons.mp hx' with hx' | hx'
      · rw [hx']
        rcases htot a b with hab | hba
        · exact absurd hab h
        · exact hba
      · exact hb x hx'

theorem sortLe_pairwise (r : α → α → Prop) [DecidableRel r]
    (htot : ∀ a b, r a b ∨ r b a) (htrans : ∀ {a b c}, r a b → r b c → r a c)
    (l : List α) : (sortLe r l).Pairwise r := by
  induction l with
  | nil => simp [sortLe]
  | cons a l ih =>
    exact insertLe_pairwise r htot htrans a (sortLe r l) ih

/-- Two sorted duplicate-free-compatible lists that are permutations of
each other coincide, for an antisymmetric total preorder. -/
theorem sorted_perm_eq (r : α → α → Prop)
    (hanti : ∀ {a b}, r a b → r b a → a = b) :
    ∀ (l₁ l₂ : List α), List.Perm l₁ l₂ →
      l₁.Pairwise r → l₂.Pairwise r → l₁ = l₂ := by
  intro l₁
  induction l₁ with
  | nil =>
    intro l₂ hp _ _
    exact (hp.nil_eq).symm ▸ rfl
  | cons a t₁ ih =>
    intro l₂ hp hp₁ hp₂
    cases l₂ with
    | nil => exact absurd hp.symm.nil_eq (by simp)
    | cons b t₂ =>
      rcases List.pairwise_cons.mp hp₁ with ⟨ha, ht₁⟩
      rcases List.pairwise_cons.mp hp₂ with ⟨hb, ht₂⟩
      have hab : a = b := by
        by_cases h : a = b
        · exact h
        · have haMem : a ∈ b :: t₂ := hp.mem_iff.mp (List.mem_cons_self a t₁)
          have hbMem : b ∈ a :: t₁ := hp.mem_iff.mpr (List.mem_cons_self b t₂)
          have haT : a ∈ t₂ := by
            rcases List.mem_cons.mp haMem with h' | h'
            · exact absurd h' h
            · exact h'
          have hbT : b ∈ t₁ := by
            rcases List.mem_cons.mp hbMem with h' | h'
            · exact absurd h'.symm h
            · exact h'
          exact hanti (ha b hbT) (hb a haT)
      subst hab
      have : t₁ = t₂ := ih t₂ (hp.cons_inv) ht₁ ht₂
      rw [this]

/-! ## Record loader

`duty_analyzer.analyze_duty_schedule` reads the CSV with columns
`['ID', 'Name', 'Status', 'DateTime']` and converts the `DateTime`
column with `pd.to_datetime`, which raises on the first unparseable
value.  `Status` is never validated.  The timestamp parser below embeds
`pd.to_datetime` on the `"YYYY-MM-DD HH:MM:SS"` strings of the duty
log (split on space / dash / colon, decimal fields, range checks). -/

/-- One raw CSV row before timestamp parsing. -/
structure RawRow where
  id : Nat
  name : String
  status : String
  datetime : String
deriving DecidableEq, Repr

/-- Split a character list on a separator character. -/
def splitOnChar (c : Char) : List Char → List (List Char)
  | [] => [[]]
  | a :: rest =>
    match splitOnChar c rest with
    | [] => [[]]
    | g :: gs => if a = c then [] :: g :: gs else (a :: g) :: gs

/-- Value of a decimal digit character, `none` for non-digits. -/
def digitVal (c : Char) : Option Nat :=
  if 48 ≤ c.toNat ∧ c.toNat ≤ 57 then some (c.toNat - 48) else none

/-- Accumulate a decimal number from characters. -/
def parseNatAux (acc : Nat) : List Char → Option Nat
  | [] => some acc
  | c :: rest =>
    match digitVal c with
    | some d => parseNatAux (acc * 10 + d) rest
    | none => none

/-- Parse a nonempty decimal numeral. -/
def parseNatChars (l : List Char) : Option Nat :=
  if l.isEmpty then none else parseNatAux 0 l

/-- Parse `YYYY-MM-DD`. -/
def parseDateChars (l : List Char) : Option Date :=
  match splitOnChar (Char.ofNat 45) l with
  | [ys, ms, ds] => do
    let y ← parseNatChars ys
    let m ← parseNatChars ms
    let d ← parseNatChars ds
    if 1 ≤ m ∧ m ≤ 12 ∧ 1 ≤ d ∧ d ≤ 31 then some ⟨y, m, d⟩ else none
  | _ => none

/-- Parse `HH:MM:SS` into the second-of-day. -/
def parseTimeChars (l : List Char) : Option Nat :=
  match splitOnChar (Char.ofNat 58) l with
  | [hs, ms, ss] => do
    let h ← parseNatChars hs
    let m ← parseNatChars ms
    let s ← parseNatChars ss
    if h ≤ 23 ∧ m ≤ 59 ∧ s ≤ 59 then some (h * 3600 + m * 60 + s) else none
  | _ => none

/-- Embedding of `pd.to_datetime` on one duty-log timestamp string:
`"YYYY-MM-DD HH:MM:SS"` to (calendar date, second-of-day); `none` when
the string does not parse. -/
def parseTimestamp (s : String) : Option (Date × Nat) :=
  match splitOnChar (Char.ofNat 32) s.data with
  | [ds, ts] => do
    let d ← parseDateChars ds
    let t ← parseTimeChars ts
    some (d, t)
  | _ => none

/-- Failure conditions of the loaders: a missing input file
(`FileNotFoundError`) or an unparseable timestamp (raised by
`pd.to_datetime`). -/
inductive LoadErr where
  | notFound : LoadErr
  | parseErr : String → LoadErr
deriving DecidableEq, Repr

/-- Parse one raw row into a `DutyEvent`.  The status field is copied
through unvalidated, exactly as in the source. -/
def parseRow (r : RawRow) : Except LoadErr Event :=
  match parseTimestamp r.datetime with
  | some (d, t) => .ok ⟨r.id, r.name, r.status, d, t⟩
  | none => .error (.parseErr r.datetime)

/-- The loader of `duty_analyzer.analyze_duty_schedule` (lines 9-16):
`pd.read_csv` followed by `pd.to_datetime` over the whole column, which
raises on the first bad timestamp, so the result is all-or-nothing. -/
def loadEvents : List RawRow → Except LoadErr (List Event)
  | [] => .ok []
  | r :: rows =>
    match parseRow r with
    | .error e => .error e
    | .ok ev =>
      match loadEvents rows with
      | .error e => .error e
      | .ok evs => .ok (ev :: evs)

/-- The loader head of `create_html_dashboard.create_html_dashboard`
(lines 12-22): glob the input files, raise `FileNotFoundError` when
none match, else concatenate and parse. -/
def htmlLoadData (files : List (List RawRow)) : Except LoadErr (List Event) :=
  if files.isEmpty then .error .notFound else loadEvents files.flatten

/-- `employee_lookup.load_data` (lines 40-58): same loading steps, but
wrapped in `try/except`, so every failure is reported as `None`. -/
def lookupLoadData (files : List (List RawRow)) : Option (List Event) :=
  if files.isEmpty then none
  else
    match loadEvents files.flatten with
    | .ok es => some es
    | .error _ => none

/-! ## Session reconstruction (`create_csv_reports`, lines 156-183) -/

/-- `sorted(df['Name'].unique())`. -/
def namesOf (es : List Event) : List String :=
  sortLe strLe ((es.map (·.name)).dedup)

/-- `df[df['Name'] == name].sort_values('DateTime')`. -/
def personData (es : List Event) (n : String) : List Event :=
  sortLe dtLe (es.filter (fun e => decide (e.name = n)))

/-- `sorted(person_data['Date'].unique())`. -/
def datesOf (es : List Event) (n : String) : List Date :=
  sortLe dateLe (((personData es n).map (·.date)).dedup)

/-- `person_data[person_data['Date'] == date]`. -/
def dateGroup (es : List Event) (n : String) (d : Date) : List Event :=
  (personData es n).filter (fun e => decide (e.date = d))

/-- `date_data[date_data['Status'] == 'DutyOn']`. -/
def dutyOns (es : List Event) (n : String) (d : Date) : List Event :=
  (dateGroup es n d).filter (fun e => decide (e.status = "DutyOn"))

/-- `date_data[date_data['Status'] == 'DutyOff']`. -/
def dutyOffs (es : List Event) (n : String) (d : Date) : List Event :=
  (dateGroup es n d).filter (fun e => decide (e.status = "DutyOff"))

/-- The unsorted DutyOn rows of a (name, date) group, straight off the
raw event list; permutation-equal to `dutyOns`. -/
def onRows (es : List Event) (n : String) (d : Date) : List Event :=
  es.filter (fun e => decide (e.name = n) && decide (e.date = d) &&
    decide (e.status = "DutyOn"))

/-- The unsorted DutyOff rows of a (name, date) group. -/
def offRows (es : List Event) (n : String) (d : Date) : List Event :=
  es.filter (fun e => decide (e.name = n) && decide (e.date = d) &&
    decide (e.status = "DutyOff"))

/-- All rows of a (name, date) group. -/
def groupRows (es : List Event) (n : String) (d : Date) : List Event :=
  es.filter (fun e => decide (e.name = n) && decide (e.date = d))

/-- Round `a / b` (`b > 0`) to the nearest integer, halves upward.
This embeds Python `round` on the program's duration values except at
exact halves: there Python rounds the nearest binary double, which may
lie below the half (e.g. the double nearest 0.015 is
0.01499999999999999944…, so `round(0.015, 2) = 0.01` while this
function yields 0.02 hundredths-wise).  Theorems about the written
value exclude those ties. -/
def roundC (a : Int) (b : Nat) : Int :=
  (2 * a + b) / (2 * (b : Int))

/-- `round(hours, 2)` for `hours = (offSec - onSec) / 3600`, stored as
an integer count of hundredths of an hour.  The embedding agrees with
the program's float rounding for every duration whose seconds are not
≡ 18 (mod 36): a non-tie duration is at least 1/360000 h away from the
`x.xx5` boundary while the double error is below 2^-45 h, so the
double rounds to the same hundredth as the exact rational.  At a tie
(seconds ≡ 18 mod 36) the program writes one of the two adjacent
hundredths, chosen by the binary representation, and this half-up
embedding is not relied on. -/
def workHoursCenti (onSec offSec : Nat) : Int :=
  roundC (((offSec : Int) - (onSec : Int)) * 100) 3600

/-- One row of `employee_work_hours.csv`: Name, Date, Duty_On_Time,
Duty_Off_Time (seconds-of-day of the chosen rows), and Work_Hours as
hundredths of an hour (`workHoursC / 100` is the written value). -/
structure Session where
  name : String
  date : Date
  dutyOnSec : Nat
  dutyOffSec : Nat
  workHoursC : Int
deriving DecidableEq, Repr

/-- The body of the `work_hours` loop (lines 165-177): if the group has
both a DutyOn and a DutyOff row, pair the first DutyOn with the last
DutyOff of the `DateTime`-sorted group. -/
def sessionFor (es : List Event) (n : String) (d : Date) : Option Session :=
  match (dutyOns es n d).head?, (dutyOffs es n d).getLast? with
  | some onF, some offL =>
    some ⟨n, d, onF.sec, offL.sec, workHoursCenti onF.sec offL.sec⟩
  | _, _ => none

/-- The full `work_hours` table (lines 156-177): iterate names in
sorted order, dates in sorted order, and emit a session when the group
has both statuses. -/
def workHours (es : List Event) : List Session :=
  (namesOf es).flatMap (fun n => (datesOf es n).filterMap (fun d => sessionFor es n d))

/-- Exact (unrounded) duration of a session in hours. -/
def sessionRawHours (s : Session) : ℚ :=
  (((s.dutyOffSec : Int) - (s.dutyOnSec : Int) : Int) : ℚ) / 3600

/-! ## Aggregations -/

/-- `sorted(df['Date'].unique())`. -/
def datesAll (es : List Event) : List Date :=
  sortLe dateLe ((es.map (·.date)).dedup)

/-- One row of `daily_duty_summary.csv` (lines 136-154). -/
structure DailySummary where
  date : Date
  totalDutyOn : Nat
  totalDutyOff : Nat
  uniqueEmployees : Nat
deriving DecidableEq, Repr

/-- The `daily_summary` table: per sorted date, the number of DutyOn
rows, DutyOff rows, and distinct employee names of that date. -/
def dailySummary (es : List Event) : List DailySummary :=
  (datesAll es).map (fun d =>
    let g := es.filter (fun e => decide (e.date = d))
    ⟨d, (g.filter (fun e => decide (e.status = "DutyOn"))).length,
      (g.filter (fun e => decide (e.status = "DutyOff"))).length,
      ((g.map (·.name)).dedup).length⟩)

/-- Sum of the per-status counts over the whole daily summary. -/
def dailySummaryStatusTotal (es : List Event) : Nat :=
  ((dailySummary es).map (fun r => r.totalDutyOn + r.totalDutyOff)).sum

/-- `len(filtered_df)` (dashboard key metric). -/
def totalRecords (es : List Event) : Nat := es.length

/-- `filtered_df['Name'].nunique()`. -/
def uniqueEmployees (es : List Event) : Nat := ((es.map (·.name)).dedup).length

/-- `len(filtered_df[filtered_df['Status'] == 'DutyOn'])`. -/
def dutyOnRecords (es : List Event) : Nat :=
  (es.filter (fun e => decide (e.status = "DutyOn"))).length

/-- `len(filtered_df[filtered_df['Status'] == 'DutyOff'])`. -/
def dutyOffRecords (es : List Event) : Nat :=
  (es.filter (fun e => decide (e.status = "DutyOff"))).length

/-! ## Dashboard per-employee schedule table (`dashboard.main`, lines 305-340)

String rendering is embedded with fuel-bounded decimal printing so the
definitions stay kernel-computable. -/

/-- Decimal digit character. -/
def digitChar (n : Nat) : Char := Char.ofNat (48 + n)

/-- Decimal digits of a number (auxiliary, fuel-bounded). -/
def natDigitsAux : Nat → Nat → List Char
  | 0, _ => []
  | fuel + 1, n =>
    if n < 10 then [digitChar n]
    else natDigitsAux fuel (n / 10) ++ [digitChar (n % 10)]

/-- Decimal rendering of a natural number (`str(n)`). -/
def natToStr (n : Nat) : String := ⟨natDigitsAux (n + 1) n⟩

/-- Two-digit zero-padded rendering of `n % 100`. -/
def pad2 (n : Nat) : String := ⟨[digitChar (n / 10 % 10), digitChar (n % 10)]⟩

/-- `str(t)` for a `datetime.time` value: `HH:MM:SS`. -/
def formatTime (s : Nat) : String :=
  pad2 (s / 3600) ++ ":" ++ pad2 (s % 3600 / 60) ++ ":" ++ pad2 (s % 60)

/-- `', '.join(...)`. -/
def joinComma : List String → String
  | [] => ""
  | [s] => s
  | s :: rest => s ++ ", " ++ joinComma rest

/-- `f"{hours:.2f} hours"`, taking the duration as hundredths of an
hour.  The `.2f` formatting rounds the float to hundredths and so
matches `workHoursCenti` away from the exact `x.xx5` ties (seconds
≡ 18 mod 36); at a tie it shares the float divergence described
there.  No theorem below inspects this string at a tie. -/
def formatHoursC (c : Int) : String :=
  (if c < 0 then "-" else "") ++ natToStr (c.natAbs / 100) ++ "." ++
    pad2 (c.natAbs % 100) ++ " hours"

/-- One row of the dashboard's detailed per-employee schedule table. -/
structure ScheduleRow where
  date : Date
  name : String
  dutyOnStr : String
  dutyOffStr : String
  workDuration : String
  totalRecords : Nat
deriving DecidableEq, Repr

/-- The body of the schedule_data loop (dashboard lines 310-336): a
date row with the joined DutyOn/DutyOff times (`'N/A'` when a side is
missing), the work duration string (`'N/A'` unless both sides exist),
and the group's record count. -/
def scheduleRowFor (es : List Event) (n : String) (d : Date) : ScheduleRow :=
  let ons := dutyOns es n d
  let offs := dutyOffs es n d
  { date := d
    name := n
    dutyOnStr :=
      if ons.isEmpty then "N/A" else joinComma (ons.map (fun e => formatTime e.sec))
    dutyOffStr :=
      if offs.isEmpty then "N/A" else joinComma (offs.map (fun e => formatTime e.sec))
    workDuration :=
      match ons.head?, offs.getLast? with
      | some onF, some offL => formatHoursC (workHoursCenti onF.sec offL.sec)
      | _, _ => "N/A"
    totalRecords := (dateGroup es n d).length }

/-- The dashboard's per-employee schedule table: one row per sorted
distinct date of the employee. -/
def scheduleDataFor (es : List Event) (n : String) : List ScheduleRow :=
  (datesOf es n).map (fun d => scheduleRowFor es n d)

/-! ## Dashboard employee summary (lines 438-453) and work-hours stats -/

/-- One row of the dashboard's Employee Summary tab. -/
structure EmployeeSummary where
  name : String
  uniqueDays : Nat
  totalRecords : Nat
  dutyOnCount : Nat
  dutyOffCount : Nat
deriving DecidableEq, Repr

/-- `filtered_df.groupby('Name')` summary: distinct dates, record count
and per-status counts per employee (keys in sorted order, as pandas
`groupby` sorts). -/
def employeeSummary (es : List Event) : List EmployeeSummary :=
  (sortLe strLe ((es.map (·.name)).dedup)).map (fun n =>
    let g := es.filter (fun e => decide (e.name = n))
    ⟨n, ((g.map (·.date)).dedup).length, g.length,
      (g.filter (fun e => decide (e.status = "DutyOn"))).length,
      (g.filter (fun e => decide (e.status = "DutyOff"))).length⟩)

/-- `work_hours_df.groupby('Name')['Work_Hours'].mean()` (dashboard
line 232): per-employee mean session duration. -/
def avgWorkHoursByName (ss : List Session) : List (String × ℚ) :=
  (sortLe strLe ((ss.map (·.name)).dedup)).map (fun n =>
    let g := ss.filter (fun s => decide (s.name = n))
    (n, ((g.map (fun s => ((s.workHoursC : ℚ) / 100))).sum) / (g.length : ℚ)))

/-! ## Concrete inputs used by witnesses and counterexamples -/

/-- The date 2024-01-01 of the worked examples. -/
def d0 : Date := ⟨2024, 1, 1⟩

/-- Rows (1,"Alice","DutyOn",08:00:00) and (2,"Alice","DutyOff",17:30:00). -/
def esPair : List Event :=
  [⟨1, "Alice", "DutyOn", d0, 28800⟩, ⟨2, "Alice", "DutyOff", d0, 63000⟩]

/-- Two DutyOn rows (08:00:00, 08:05:00) and one DutyOff row (17:00:00). -/
def esTwoOn : List Event :=
  [⟨1, "Alice", "DutyOn", d0, 28800⟩, ⟨2, "Alice", "DutyOn", d0, 29100⟩,
    ⟨3, "Alice", "DutyOff", d0, 61200⟩]

/-- DutyOn 08:00:00, DutyOff 16:00:30: duration 8.00833... hours, where
truncation (8.00) and rounding (8.01) to two decimals differ. -/
def esTrunc : List Event :=
  [⟨1, "Alice", "DutyOn", d0, 28800⟩, ⟨2, "Alice", "DutyOff", d0, 57630⟩]

/-- DutyOn 17:00:00 after DutyOff 08:00:00: a negative-duration group. -/
def esNeg : List Event :=
  [⟨1, "Alice", "DutyOn", d0, 61200⟩, ⟨2, "Alice", "DutyOff", d0, 28800⟩]

/-- A raw CSV row whose status is neither DutyOn nor DutyOff. -/
def rowBreak : RawRow := ⟨3, "Bob", "Break", "2024-01-01 09:00:00"⟩

/-- The parsed form of `rowBreak`. -/
def eBreak : Event := ⟨3, "Bob", "Break", d0, 32400⟩

/-! ## Structural lemmas about the reconstruction pipeline -/

theorem personData_perm (es : List Event) (n : String) :
    List.Perm (personData es n) (es.filter (fun e => decide (e.name = n))) :=
  sortLe_perm dtLe _

theorem personData_pairwise (es : List Event) (n : String) :
    (personData es n).Pairwise dtLe :=
  sortLe_pairwise dtLe dtLe_total (fun h1 h2 => dtLe_trans h1 h2) _

theorem dateGroup_pairwise (es : List Event) (n : String) (d : Date) :
    (dateGroup es n d).Pairwise dtLe :=
  (personData_pairwise es n).sublist (List.filter_sublist _)

theorem dutyOns_pairwise (es : List Event) (n : String) (d : Date) :
    (dutyOns es n d).Pairwise dtLe :=
  (dateGroup_pairwise es n d).sublist (List.filter_sublist _)

theorem dutyOffs_pairwise (es : List Event) (n : String) (d : Date) :
    (dutyOffs es n d).Pairwise dtLe :=
  (dateGroup_pairwise es n d).sublist (List.filter_sublist _)

theorem dateGroup_perm_groupRows (es : List Event) (n : String) (d : Date) :
    List.Perm (dateGroup es n d) (groupRows es n d) := by
  unfold dateGroup groupRows
  have h1 : List.Perm ((personData es n).filter (fun e => decide (e.date = d)))
      ((es.filter (fun e => decide (e.name = n))).filter (fun e => decide (e.date = d))) :=
    (personData_perm es n).filter _
  refine h1.trans ?_
  rw [List.filter_filter]
  exact List.Perm.of_eq (List.filter_congr (fun e _ => by
    cases hn : decide (e.name = n) <;> cases hd : decide (e.date = d) <;> rfl))

theorem dutyOns_perm_onRows (es : List Event) (n : String) (d : Date) :
    List.Perm (dutyOns es n d) (onRows es n d) := by
  unfold dutyOns onRows
  have h1 : List.Perm ((dateGroup es n d).filter (fun e => decide (e.status = "DutyOn")))
      ((groupRows es n d).filter (fun e => decide (e.status = "DutyOn"))) :=
    (dateGroup_perm_groupRows es n d).filter _
  refine h1.trans ?_
  unfold groupRows
  rw [List.filter_filter]
  exact List.Perm.of_eq (List.filter_congr (fun e _ => by
    cases hn : decide (e.name = n) <;> cases hd : decide (e.date = d) <;>
      cases hs : decide (e.status = "DutyOn") <;> rfl))

theorem dutyOffs_perm_offRows (es : List Event) (n : String) (d : Date) :
    List.Perm (dutyOffs es n d) (offRows es n d) := by
  unfold dutyOffs offRows
  have h1 : List.Perm ((dateGroup es n d).filter (fun e => decide (e.status = "DutyOff")))
      ((groupRows es n d).filter (fun e => decide (e.status = "DutyOff"))) :=
    (dateGroup_perm_groupRows es n d).filter _
  refine h1.trans ?_
  unfold groupRows
  rw [List.filter_filter]
  exact List.Perm.of_eq (List.filter_congr (fun e _ => by
    cases hn : decide (e.name = n) <;> cases hd : decide (e.date = d) <;>
      cases hs : decide (e.status = "DutyOff") <;> rfl))

theorem mem_dateGroup_date {es : List Event} {n : String} {d : Date} {x : Event}
    (hx : x ∈ dateGroup es n d) : x.date = d := by
  have := (List.mem_filter.mp hx).2
  simpa using this

theorem mem_dutyOns_date {es : List Event} {n : String} {d : Date} {x : Event}
    (hx : x ∈ dutyOns es n d) : x.date = d :=
  mem_dateGroup_date (List.mem_filter.mp hx).1

theorem mem_dutyOffs_date {es : List Event} {n : String} {d : Date} {x : Event}
    (hx : x ∈ dutyOffs es n d) : x.date = d :=
  mem_dateGroup_date (List.mem_filter.mp hx).1

/-- In a `DateTime`-sorted list whose events all share one calendar
date, the first element has the minimal second-of-day. -/
theorem head_sec_min {l : List Event} {d : Date} {a : Event}
    (hp : l.Pairwise dtLe) (hd : ∀ x ∈ l, x.date = d)
    (ha : l.head? = some a) : ∀ x ∈ l, a.sec ≤ x.sec := by
  cases l with
  | nil => simp at ha
  | cons b t =>
    obtain rfl : b = a := by simpa using ha
    intro x hx
    rcases List.mem_cons.mp hx with hx | hx
    · rw [hx]
    · have hle : dtLe b x := (List.pairwise_cons.mp hp).1 x hx
      rcases hle with hlt | ⟨_, hsec⟩
      · have h1 : b.date = d := hd b (List.mem_cons_self b t)
        have h2 : x.date = d := hd x (List.mem_cons.mpr (Or.inr hx))
        rw [h1, h2] at hlt
        exact absurd hlt (dateLt_irrefl d)
      · exact hsec

/-- In a `DateTime`-sorted list whose events all share one calendar
date, the last element has the maximal second-of-day. -/
theorem getLast_sec_max {l : List Event} {d : Date} {a : Event}
    (hp : l.Pairwise dtLe) (hd : ∀ x ∈ l, x.date = d)
    (ha : l.getLast? = some a) : ∀ x ∈ l, x.sec ≤ a.sec := by
  induction l with
  | nil => simp at ha
  | cons b t ih =>
    cases t with
    | nil =>
      obtain rfl : b = a := by simpa using ha
      intro x hx
      rcases List.mem_cons.mp hx with hx | hx
      · rw [hx]
      · simp at hx
    | cons c t' =>
      have ha' : (c :: t').getLast? = some a := by
        simpa [List.getLast?] using ha
      intro x hx
      rcases List.mem_cons.mp hx with hx | hx
      · subst hx
        have haMem : a ∈ c :: t' := List.mem_of_mem_getLast? ha'
        have hle : dtLe x a := (List.pairwise_cons.mp hp).1 a haMem
        rcases hle with hlt | ⟨_, hsec⟩
        · have h1 : x.date = d := hd x (List.mem_cons_self x (c :: t'))
          have h2 : a.date = d := hd a (List.mem_cons.mpr (Or.inr haMem))
          rw [h1, h2] at hlt
          exact absurd hlt (dateLt_irrefl d)
        · exact hsec
      · exact ih (List.pairwise_cons.mp hp).2
          (fun y hy => hd y (List.mem_cons.mpr (Or.inr hy))) ha' x hx

/-- The heads of two sorted, same-date, permutation-equal event lists
have the same second-of-day. -/
theorem head_sec_congr {l₁ l₂ : List Event} {d : Date} {a₁ a₂ : Event}
    (hpm : List.Perm l₁ l₂)
    (hp₁ : l₁.Pairwise dtLe) (hp₂ : l₂.Pairwise dtLe)
    (hd₁ : ∀ x ∈ l₁, x.date = d)
    (h₁ : l₁.head? = some a₁) (h₂ : l₂.head? = some a₂) : a₁.sec = a₂.sec := by
  have hd₂ : ∀ x ∈ l₂, x.date = d := fun x hx => hd₁ x (hpm.mem_iff.mpr hx)
  have m₁ : a₁ ∈ l₁ := List.mem_of_mem_head? h₁
  have m₂ : a₂ ∈ l₂ := List.mem_of_mem_head? h₂
  have le₁ : a₁.sec ≤ a₂.sec :=
    head_sec_min hp₁ hd₁ h₁ a₂ (hpm.mem_iff.mpr m₂)
  have le₂ : a₂.sec ≤ a₁.sec :=
    head_sec_min hp₂ hd₂ h₂ a₁ (hpm.mem_iff.mp m₁)
  omega

/-- The last elements of two sorted, same-date, permutation-equal event
lists have the same second-of-day. -/
theorem getLast_sec_congr {l₁ l₂ : List Event} {d : Date} {a₁ a₂ : Event}
    (hpm : List.Perm l₁ l₂)
    (hp₁ : l₁.Pairwise dtLe) (hp₂ : l₂.Pairwise dtLe)
    (hd₁ : ∀ x ∈ l₁, x.date = d)
    (h₁ : l₁.getLast? = some a₁) (h₂ : l₂.getLast? = some a₂) : a₁.sec = a₂.sec := by
  have hd₂ : ∀ x ∈ l₂, x.date = d := fun x hx => hd₁ x (hpm.mem_iff.mpr hx)
  have m₁ : a₁ ∈ l₁ := List.mem_of_mem_getLast? h₁
  have m₂ : a₂ ∈ l₂ := List.mem_of_mem_getLast? h₂
  have le₁ : a₂.sec ≤ a₁.sec :=
    getLast_sec_max hp₁ hd₁ h₁ a₂ (hpm.mem_iff.mpr m₂)
  have le₂ : a₁.sec ≤ a₂.sec :=
    getLast_sec_max hp₂ hd₂ h₂ a₁ (hpm.mem_iff.mp m₁)
  omega

/-- `sessionFor` depends on a (name, date) group only through the
multisets of its DutyOn and DutyOff rows. -/
theorem sessionFor_congr {es es' : List Event} {n : String} {d : Date}
    (hOn : List.Perm (onRows es n d) (onRows es' n d))
    (hOff : List.Perm (offRows es n d) (offRows es' n d)) :
    sessionFor es n d = sessionFor es' n d := by
  have hOns : List.Perm (dutyOns es n d) (dutyOns es' n d) :=
    ((dutyOns_perm_onRows es n d).trans hOn).trans (dutyOns_perm_onRows es' n d).symm
  have hOffs : List.Perm (dutyOffs es n d) (dutyOffs es' n d) :=
    ((dutyOffs_perm_offRows es n d).trans hOff).trans (dutyOffs_perm_offRows es' n d).symm
  unfold sessionFor
  cases hon : (dutyOns es n d).head? with
  | none =>
    have h1 : dutyOns es n d = [] := List.head?_eq_none_iff.mp hon
    have h2 : dutyOns es' n d = [] := (h1 ▸ hOns).symm.eq_nil
    rw [h2]
    rfl
  | some onF =>
    cases hon' : (dutyOns es' n d).head? with
    | none =>
      have h2 : dutyOns es' n d = [] := List.head?_eq_none_iff.mp hon'
      have h1 : dutyOns es n d = [] := (h2 ▸ hOns).eq_nil
      rw [h1] at hon
      simp at hon
    | some onF' =>
      cases hoff : (dutyOffs es n d).getLast? with
      | none =>
        have h1 : dutyOffs es n d = [] := List.getLast?_eq_none_iff.mp hoff
        have h2 : dutyOffs es' n d = [] := (h1 ▸ hOffs).symm.eq_nil
        rw [h2]
        rfl
      | some offL =>
        cases hoff' : (dutyOffs es' n d).getLast? with
        | none =>
          have h2 : dutyOffs es' n d = [] := List.getLast?_eq_none_iff.mp hoff'
          have h1 : dutyOffs es n d = [] := (h2 ▸ hOffs).eq_nil
          rw [h1] at hoff
          simp at hoff
        | some offL' =>
          have hOnSec : onF.sec = onF'.sec :=
            head_sec_congr hOns (dutyOns_pairwise es n d) (dutyOns_pairwise es' n d)
              (fun x hx => mem_dutyOns_date hx) hon hon'
          have hOffSec : offL.sec = offL'.sec :=
            getLast_sec_congr hOffs (dutyOffs_pairwise es n d) (dutyOffs_pairwise es' n d)
              (fun x hx => mem_dutyOffs_date hx) hoff hoff'
          show some (⟨n, d, onF.sec, offL.sec, workHoursCenti onF.sec offL.sec⟩ : Session) =
            some ⟨n, d, onF'.sec, offL'.sec, workHoursCenti onF'.sec offL'.sec⟩
          rw [hOnSec, hOffSec]

/-- Inversion of `sessionFor`: a produced session is built from the
head of the sorted DutyOn rows and the last of the sorted DutyOff
rows. -/
theorem sessionFor_some_inv {es : List Event} {n : String} {d : Date} {s : Session}
    (h : sessionFor es n d = some s) :
    ∃ onF offL, (dutyOns es n d).head? = some onF ∧
      (dutyOffs es n d).getLast? = some offL ∧
      s = ⟨n, d, onF.sec, offL.sec, workHoursCenti onF.sec offL.sec⟩ := by
  unfold sessionFor at h
  cases hon : (dutyOns es n d).head? with
  | none => rw [hon] at h; simp at h
  | some onF =>
    cases hoff : (dutyOffs es n d).getLast? with
    | none => rw [hon, hoff] at h; simp at h
    | some offL =>
      rw [hon, hoff] at h
      exact ⟨onF, offL, rfl, rfl, (Option.some.injEq _ _ ▸ h).symm⟩

/-- A produced session carries its group's name and date. -/
theorem sessionFor_name_date {es : List Event} {n : String} {d : Date} {s : Session}
    (h : sessionFor es n d = some s) : s.name = n ∧ s.date = d := by
  obtain ⟨onF, offL, _, _, hs⟩ := sessionFor_some_inv h
  rw [hs]
  exact ⟨rfl, rfl⟩

/-- `sessionFor` yields `none` exactly when one status side of the
group is absent. -/
theorem sessionFor_eq_none_iff (es : List Event) (n : String) (d : Date) :
    sessionFor es n d = none ↔ onRows es n d = [] ∨ offRows es n d = [] := by
  constructor
  · intro h
    unfold sessionFor at h
    cases hon : (dutyOns es n d).head? with
    | none =>
      left
      exact ((List.head?_eq_none_iff.mp hon) ▸ (dutyOns_perm_onRows es n d)).symm.eq_nil
    | some onF =>
      cases hoff : (dutyOffs es n d).getLast? with
      | none =>
        right
        exact ((List.getLast?_eq_none_iff.mp hoff) ▸ (dutyOffs_perm_offRows es n d)).symm.eq_nil
      | some offL => rw [hon, hoff] at h; simp at h
  · intro h
    unfold sessionFor
    rcases h with h | h
    · have h1 : dutyOns es n d = [] := (h ▸ (dutyOns_perm_onRows es n d)).eq_nil
      rw [h1]
      rfl
    · have h1 : dutyOffs es n d = [] := (h ▸ (dutyOffs_perm_offRows es n d)).eq_nil
      rw [h1]
      cases (dutyOns es n d).head? <;> rfl

/-- Membership in the sorted unique name list. -/
theorem mem_namesOf {es : List Event} {n : String} :
    n ∈ namesOf es ↔ ∃ e ∈ es, e.name = n := by
  unfold namesOf
  rw [(sortLe_perm strLe _).mem_iff, List.mem_dedup, List.mem_map]

theorem namesOf_nodup (es : List Event) : (namesOf es).Nodup :=
  ((sortLe_perm strLe _).nodup_iff).mpr (List.nodup_dedup _)

/-- Membership in an employee's sorted unique date list. -/
theorem mem_datesOf {es : List Event} {n : String} {d : Date} :
    d ∈ datesOf es n ↔ ∃ e ∈ es, e.name = n ∧ e.date = d := by
  unfold datesOf
  rw [(sortLe_perm dateLe _).mem_iff, List.mem_dedup, List.mem_map]
  constructor
  · rintro ⟨e, he, rfl⟩
    have he' : e ∈ es.filter (fun x => decide (x.name = n)) := (personData_perm es n).mem_iff.mp he
    rcases List.mem_filter.mp he' with ⟨hmem, hname⟩
    exact ⟨e, hmem, by simpa using hname, rfl⟩
  · rintro ⟨e, he, hname, rfl⟩
    refine ⟨e, ?_, rfl⟩
    exact (personData_perm es n).mem_iff.mpr
      (List.mem_filter.mpr ⟨he, by simpa using hname⟩)

theorem datesOf_nodup (es : List Event) (n : String) : (datesOf es n).Nodup :=
  ((sortLe_perm dateLe _).nodup_iff).mpr (List.nodup_dedup _)

/-- `flatMap` congruence on the traversed list. -/
theorem flatMap_congr {l : List α} {f g : α → List β}
    (h : ∀ x ∈ l, f x = g x) : l.flatMap f = l.flatMap g := by
  induction l with
  | nil => rfl
  | cons a t ih =>
    simp only [List.flatMap_cons]
    rw [h a (List.mem_cons_self a t), ih (fun x hx => h x (List.mem_cons.mpr (Or.inr hx)))]

/-- `filterMap` congruence on the traversed list. -/
theorem filterMap_congr {l : List α} {f g : α → Option β}
    (h : ∀ x ∈ l, f x = g x) : l.filterMap f = l.filterMap g := by
  induction l with
  | nil => rfl
  | cons a t ih =>
    simp only [List.filterMap_cons]
    rw [h a (List.mem_cons_self a t), ih (fun x hx => h x (List.mem_cons.mpr (Or.inr hx)))]

/-! ## Permutation invariance of the reconstruction -/

theorem namesOf_perm_congr {es es' : List Event} (h : List.Perm es es') :
    namesOf es = namesOf es' := by
  apply sorted_perm_eq strLe (fun h1 h2 => strLe_antisymm h1 h2)
  · exact (sortLe_perm strLe _).trans (((h.map _).dedup).trans (sortLe_perm strLe _).symm)
  · exact sortLe_pairwise strLe strLe_total (fun h1 h2 => strLe_trans h1 h2) _
  · exact sortLe_pairwise strLe strLe_total (fun h1 h2 => strLe_trans h1 h2) _

theorem personData_perm_congr {es es' : List Event} (n : String) (h : List.Perm es es') :
    List.Perm (personData es n) (personData es' n) :=
  (personData_perm es n).trans ((h.filter _).trans (personData_perm es' n).symm)

theorem datesOf_perm_congr {es es' : List Event} (n : String) (h : List.Perm es es') :
    datesOf es n = datesOf es' n := by
  apply sorted_perm_eq dateLe (fun h1 h2 => dateLe_antisymm h1 h2)
  · exact (sortLe_perm dateLe _).trans
      ((((personData_perm_congr n h).map _).dedup).trans (sortLe_perm dateLe _).symm)
  · exact sortLe_pairwise dateLe dateLe_total (fun h1 h2 => dateLe_trans h1 h2) _
  · exact sortLe_pairwise dateLe dateLe_total (fun h1 h2 => dateLe_trans h1 h2) _

theorem onRows_perm_congr {es es' : List Event} (n : String) (d : Date)
    (h : List.Perm es es') : List.Perm (onRows es n d) (onRows es' n d) :=
  h.filter _

theorem offRows_perm_congr {es es' : List Event} (n : String) (d : Date)
    (h : List.Perm es es') : List.Perm (offRows es n d) (offRows es' n d) :=
  h.filter _

/-- The work-hours table is the same for any two row orders of the
input: each session depends only on the minimum DutyOn and maximum
DutyOff timestamp of its group. -/
theorem workHours_perm_congr {es es' : List Event} (h : List.Perm es es') :
    workHours es = workHours es' := by
  unfold workHours
  rw [namesOf_perm_congr h]
  apply flatMap_congr
  intro n _
  rw [datesOf_perm_congr n h]
  apply filterMap_congr
  intro d _
  exact sessionFor_congr (onRows_perm_congr n d h) (offRows_perm_congr n d h)

/-! ## Characterisation of the emitted sessions -/

/-- A session is in the work-hours table exactly when its group
produced it. -/
theorem mem_workHours {es : List Event} {s : Session} :
    s ∈ workHours es ↔
      ∃ n ∈ namesOf es, ∃ d ∈ datesOf es n, sessionFor es n d = some s := by
  unfold workHours
  simp [List.mem_flatMap, List.mem_filterMap]

/-- The Duty_On_Time of an emitted session is the earliest DutyOn
second-of-day of its group. -/
theorem sessionFor_onSec_min {es : List Event} {n : String} {d : Date} {s : Session}
    (h : sessionFor es n d = some s) :
    (∃ e ∈ onRows es n d, e.sec = s.dutyOnSec) ∧
      ∀ e ∈ onRows es n d, s.dutyOnSec ≤ e.sec := by
  obtain ⟨onF, offL, hon, hoff, hs⟩ := sessionFor_some_inv h
  have honSec : s.dutyOnSec = onF.sec := by rw [hs]
  have hmem : onF ∈ dutyOns es n d := List.mem_of_mem_head? hon
  constructor
  · exact ⟨onF, (dutyOns_perm_onRows es n d).mem_iff.mp hmem, honSec.symm⟩
  · intro e he
    rw [honSec]
    exact head_sec_min (dutyOns_pairwise es n d) (fun x hx => mem_dutyOns_date hx) hon e
      ((dutyOns_perm_onRows es n d).mem_iff.mpr he)

/-- The Duty_Off_Time of an emitted session is the latest DutyOff
second-of-day of its group. -/
theorem sessionFor_offSec_max {es : List Event} {n : String} {d : Date} {s : Session}
    (h : sessionFor es n d = some s) :
    (∃ e ∈ offRows es n d, e.sec = s.dutyOffSec) ∧
      ∀ e ∈ offRows es n d, e.sec ≤ s.dutyOffSec := by
  obtain ⟨onF, offL, hon, hoff, hs⟩ := sessionFor_some_inv h
  have hoffSec : s.dutyOffSec = offL.sec := by rw [hs]
  have hmem : offL ∈ dutyOffs es n d := List.mem_of_mem_getLast? hoff
  constructor
  · exact ⟨offL, (dutyOffs_perm_offRows es n d).mem_iff.mp hmem, hoffSec.symm⟩
  · intro e he
    rw [hoffSec]
    exact getLast_sec_max (dutyOffs_pairwise es n d) (fun x hx => mem_dutyOffs_date hx) hoff e
      ((dutyOffs_perm_offRows es n d).mem_iff.mpr he)

/-- The Work_Hours of an emitted session is the rounded duration
between its two chosen timestamps. -/
theorem sessionFor_workHoursC {es : List Event} {n : String} {d : Date} {s : Session}
    (h : sessionFor es n d = some s) :
    s.workHoursC = workHoursCenti s.dutyOnSec s.dutyOffSec := by
  obtain ⟨onF, offL, _, _, hs⟩ := sessionFor_some_inv h
  rw [hs]

/-- Selector for the sessions of one (name, date) group. -/
def sessionKey (n : String) (d : Date) (t : Session) : Bool :=
  decide (t.name = n) && decide (t.date = d)

theorem sessionKey_eq_true {n : String} {d : Date} {t : Session} :
    sessionKey n d t = true ↔ t.name = n ∧ t.date = d := by
  unfold sessionKey
  simp

theorem filter_flatMap (l : List α) (f : α → List β) (p : β → Bool) :
    (l.flatMap f).filter p = l.flatMap (fun x => (f x).filter p) := by
  induction l with
  | nil => rfl
  | cons a t ih =>
    simp only [List.flatMap_cons, List.filter_append, ih]

theorem flatMap_eq_nil {l : List α} {g : α → List β}
    (h : ∀ x ∈ l, g x = []) : l.flatMap g = [] := by
  induction l with
  | nil => rfl
  | cons a t ih =>
    simp only [List.flatMap_cons]
    rw [h a (List.mem_cons_self a t), ih (fun x hx => h x (List.mem_cons.mpr (Or.inr hx)))]
    rfl

theorem flatMap_eq_single {l : List α} {g : α → List β} {a : α} {out : List β}
    (hnd : l.Nodup) (ha : a ∈ l) (hga : g a = out)
    (hother : ∀ x ∈ l, x ≠ a → g x = []) : l.flatMap g = out := by
  induction l with
  | nil => simp at ha
  | cons x t ih =>
    rcases List.nodup_cons.mp hnd with ⟨hxt, hndt⟩
    simp only [List.flatMap_cons]
    rcases List.mem_cons.mp ha with rfl | hat
    · rw [hga, flatMap_eq_nil (fun y hy => hother y (List.mem_cons.mpr (Or.inr hy))
        (fun hya => hxt (hya ▸ hy)))]
      exact List.append_nil out
    · rw [hother x (List.mem_cons_self x t) (fun hxa => hxt (hxa ▸ hat))]
      rw [List.nil_append]
      exact ih hndt hat (fun y hy hya => hother y (List.mem_cons.mpr (Or.inr hy)) hya)

/-- Within one employee's date loop, filtering the produced sessions
for one date yields exactly the session of that date. -/
theorem filterMap_filter_single {es : List Event} {n : String} {d : Date} {s : Session}
    {ds : List Date} (hnd : ds.Nodup) (hd : d ∈ ds)
    (hs : sessionFor es n d = some s) :
    (ds.filterMap (fun d' => sessionFor es n d')).filter (sessionKey n d) = [s] := by
  induction ds with
  | nil => simp at hd
  | cons d' t ih =>
    rcases List.nodup_cons.mp hnd with ⟨hdt, hndt⟩
    rcases List.mem_cons.mp hd with rfl | hdmem
    · rw [List.filterMap_cons, hs]
      have hkey : sessionKey n d s = true :=
        sessionKey_eq_true.mpr ⟨(sessionFor_name_date hs).1, (sessionFor_name_date hs).2⟩
      rw [List.filter_cons_of_pos hkey]
      have hrest : (t.filterMap (fun d' => sessionFor es n d')).filter (sessionKey n d) = [] := by
        rw [List.filter_eq_nil_iff]
        intro u hu
        rcases List.mem_filterMap.mp hu with ⟨d'', hd'', hu''⟩
        have hud : u.date = d'' := (sessionFor_name_date hu'').2
        intro hkey'
        have : u.date = d := (sessionKey_eq_true.mp hkey').2
        exact hdt (this ▸ hud ▸ hd'')
      rw [hrest]
    · rw [List.filterMap_cons]
      cases hsd' : sessionFor es n d' with
      | none => exact ih hndt hdmem
      | some u =>
        have hud : u.date = d' := (sessionFor_name_date hsd').2
        have hkey : sessionKey n d u = false := by
          rw [← Bool.not_eq_true]
          intro hk
          have : u.date = d := (sessionKey_eq_true.mp hk).2
          exact hdt ((this ▸ hud) ▸ hdmem)
        rw [List.filter_cons_of_neg (by simp [hkey])]
        exact ih hndt hdmem

/-- Filtering the whole work-hours table for one (name, date) group
yields exactly that group's session. -/
theorem workHours_filter_single {es : List Event} {n : String} {d : Date} {s : Session}
    (hn : n ∈ namesOf es) (hd : d ∈ datesOf es n)
    (hs : sessionFor es n d = some s) :
    (workHours es).filter (sessionKey n d) = [s] := by
  unfold workHours
  rw [filter_flatMap]
  apply flatMap_eq_single (namesOf_nodup es) hn
  · exact filterMap_filter_single (datesOf_nodup es n) hd hs
  · intro n' hn' hne
    rw [List.filter_eq_nil_iff]
    intro u hu
    rcases List.mem_filterMap.mp hu with ⟨d'', hd'', hu''⟩
    have hun : u.name = n' := (sessionFor_name_date hu'').1
    intro hkey
    exact hne (hun.symm.trans (sessionKey_eq_true.mp hkey).1)

/-! ## Rows with a foreign status never contribute to sessions -/

/-- Rows whose status is one of the two recognised values. -/
def isDutyRow (e : Event) : Bool :=
  decide (e.status = "DutyOn") || decide (e.status = "DutyOff")

theorem onRows_filter_duty (es : List Event) (n : String) (d : Date) :
    onRows (es.filter isDutyRow) n d = onRows es n d := by
  unfold onRows
  rw [List.filter_filter]
  apply List.filter_congr
  intro e _
  by_cases h1 : e.name = n <;> by_cases h2 : e.date = d <;>
    by_cases h3 : e.status = "DutyOn" <;> simp [isDutyRow, h1, h2, h3]

theorem offRows_filter_duty (es : List Event) (n : String) (d : Date) :
    offRows (es.filter isDutyRow) n d = offRows es n d := by
  unfold offRows
  rw [List.filter_filter]
  apply List.filter_congr
  intro e _
  by_cases h1 : e.name = n <;> by_cases h2 : e.date = d <;>
    by_cases h3 : e.status = "DutyOff" <;> simp [isDutyRow, h1, h2, h3]

theorem sessionFor_filter_duty (es : List Event) (n : String) (d : Date) :
    sessionFor (es.filter isDutyRow) n d = sessionFor es n d :=
  sessionFor_congr (List.Perm.of_eq (onRows_filter_duty es n d))
    (List.Perm.of_eq (offRows_filter_duty es n d))

theorem namesOf_pairwise (es : List Event) : (namesOf es).Pairwise strLe :=
  sortLe_pairwise strLe strLe_total (fun h1 h2 => strLe_trans h1 h2) _

theorem datesOf_pairwise (es : List Event) (n : String) :
    (datesOf es n).Pairwise dateLe :=
  sortLe_pairwise dateLe dateLe_total (fun h1 h2 => dateLe_trans h1 h2) _

theorem filterMap_eq_nil_of {l : List α} {f : α → Option β}
    (h : ∀ x ∈ l, f x = none) : l.filterMap f = [] := by
  induction l with
  | nil => rfl
  | cons a t ih =>
    rw [List.filterMap_cons, h a (List.mem_cons_self a t)]
    exact ih (fun x hx => h x (List.mem_cons.mpr (Or.inr hx)))

/-- Two sorted duplicate-free traversals agree when one traverses a
subset of the other and the extra keys contribute nothing. -/
theorem flatMap_eq_of_sorted_subset {r : α → α → Prop}
    (hanti : ∀ {a b}, r a b → r b a → a = b) :
    ∀ (l₁ l₂ : List α) (f : α → List β), l₁.Pairwise r → l₂.Pairwise r →
      l₁.Nodup → l₂.Nodup → (∀ x ∈ l₂, x ∈ l₁) →
      (∀ x ∈ l₁, x ∉ l₂ → f x = []) → l₁.flatMap f = l₂.flatMap f := by
  intro l₁
  induction l₁ with
  | nil =>
    intro l₂ f _ _ _ _ hsub _
    have : l₂ = [] := List.eq_nil_iff_forall_not_mem.mpr
      (fun x hx => by simpa using hsub x hx)
    rw [this]
  | cons a t₁ ih =>
    intro l₂ f hp₁ hp₂ hnd₁ hnd₂ hsub hnil
    rcases List.pairwise_cons.mp hp₁ with ⟨ha, hpt₁⟩
    rcases List.nodup_cons.mp hnd₁ with ⟨hat₁, hndt₁⟩
    cases l₂ with
    | nil =>
      rw [flatMap_eq_nil (fun x hx => hnil x hx (by simp))]
      rfl
    | cons b t₂ =>
      rcases List.pairwise_cons.mp hp₂ with ⟨hb, hpt₂⟩
      rcases List.nodup_cons.mp hnd₂ with ⟨hbt₂, hndt₂⟩
      by_cases hab : a = b
      · subst hab
        simp only [List.flatMap_cons]
        congr 1
        exact ih t₂ f hpt₁ hpt₂ hndt₁ hndt₂
          (fun x hx =>
            have hx₁ : x ∈ a :: t₁ := hsub x (List.mem_cons.mpr (Or.inr hx))
            (List.mem_cons.mp hx₁).resolve_left (fun hxa => hbt₂ (hxa ▸ hx)))
          (fun x hx hxn => hnil x (List.mem_cons.mpr (Or.inr hx))
            (fun hx₂ => hxn ((List.mem_cons.mp hx₂).resolve_left
              (fun hxb => hat₁ (hxb ▸ hx)))))
      · have hbMem : b ∈ a :: t₁ := hsub b (List.mem_cons_self b t₂)
        have hbT₁ : b ∈ t₁ := (List.mem_cons.mp hbMem).resolve_left (fun h => hab h.symm)
        have haNot : a ∉ b :: t₂ := by
          intro haMem
          rcases List.mem_cons.mp haMem with h | h
          · exact hab h
          · exact hab (hanti (ha b hbT₁) (hb a h))
        have hfa : f a = [] := hnil a (List.mem_cons_self a t₁) haNot
        simp only [List.flatMap_cons, hfa, List.nil_append]
        exact ih (b :: t₂) f hpt₁ hp₂ hndt₁ hnd₂
          (fun x hx =>
            have hx₁ : x ∈ a :: t₁ := hsub x hx
            (List.mem_cons.mp hx₁).resolve_left (fun hxa => haNot (hxa ▸ hx)))
          (fun x hx hxn => hnil x (List.mem_cons.mpr (Or.inr hx)) hxn)

/-- `filterMap` version of `flatMap_eq_of_sorted_subset`. -/
theorem filterMap_eq_of_sorted_subset {r : α → α → Prop}
    (hanti : ∀ {a b}, r a b → r b a → a = b) :
    ∀ (l₁ l₂ : List α) (f : α → Option β), l₁.Pairwise r → l₂.Pairwise r →
      l₁.Nodup → l₂.Nodup → (∀ x ∈ l₂, x ∈ l₁) →
      (∀ x ∈ l₁, x ∉ l₂ → f x = none) → l₁.filterMap f = l₂.filterMap f := by
  intro l₁
  induction l₁ with
  | nil =>
    intro l₂ f _ _ _ _ hsub _
    have : l₂ = [] := List.eq_nil_iff_forall_not_mem.mpr
      (fun x hx => by simpa using hsub x hx)
    rw [this]
  | cons a t₁ ih =>
    intro l₂ f hp₁ hp₂ hnd₁ hnd₂ hsub hnone
    rcases List.pairwise_cons.mp hp₁ with ⟨ha, hpt₁⟩
    rcases List.nodup_cons.mp hnd₁ with ⟨hat₁, hndt₁⟩
    cases l₂ with
    | nil =>
      rw [filterMap_eq_nil_of (fun x hx => hnone x hx (by simp))]
      rfl
    | cons b t₂ =>
      rcases List.pairwise_cons.mp hp₂ with ⟨hb, hpt₂⟩
      rcases List.nodup_cons.mp hnd₂ with ⟨hbt₂, hndt₂⟩
      by_cases hab : a = b
      · subst hab
        rw [List.filterMap_cons, List.filterMap_cons]
        have heq : t₁.filterMap f = t₂.filterMap f :=
          ih t₂ f hpt₁ hpt₂ hndt₁ hndt₂
            (fun x hx =>
              have hx₁ : x ∈ a :: t₁ := hsub x (List.mem_cons.mpr (Or.inr hx))
              (List.mem_cons.mp hx₁).resolve_left (fun hxa => hbt₂ (hxa ▸ hx)))
            (fun x hx hxn => hnone x (List.mem_cons.mpr (Or.inr hx))
              (fun hx₂ => hxn ((List.mem_cons.mp hx₂).resolve_left
                (fun hxb => hat₁ (hxb ▸ hx)))))
        cases f a <;> rw [heq]
      · have hbMem : b ∈ a :: t₁ := hsub b (List.mem_cons_self b t₂)
        have hbT₁ : b ∈ t₁ := (List.mem_cons.mp hbMem).resolve_left (fun h => hab h.symm)
        have haNot : a ∉ b :: t₂ := by
          intro haMem
          rcases List.mem_cons.mp haMem with h | h
          · exact hab h
          · exact hab (hanti (ha b hbT₁) (hb a h))
        have hfa : f a = none := hnone a (List.mem_cons_self a t₁) haNot
        rw [List.filterMap_cons, hfa]
        exact ih (b :: t₂) f hpt₁ hp₂ hndt₁ hnd₂
          (fun x hx =>
            have hx₁ : x ∈ a :: t₁ := hsub x hx
            (List.mem_cons.mp hx₁).resolve_left (fun hxa => haNot (hxa ▸ hx)))
          (fun x hx hxn => hnone x (List.mem_cons.mpr (Or.inr hx)) hxn)

/-- Deleting the rows whose status is neither DutyOn nor DutyOff does
not change the reconstructed sessions. -/
theorem workHours_filter_duty (es : List Event) :
    workHours (es.filter isDutyRow) = workHours es := by
  unfold workHours
  have hstep1 : ∀ n, (datesOf (es.filter isDutyRow) n).filterMap
      (fun d => sessionFor (es.filter isDutyRow) n d) =
      (datesOf (es.filter isDutyRow) n).filterMap (fun d => sessionFor es n d) :=
    fun n => filterMap_congr (fun d _ => sessionFor_filter_duty es n d)
  have hdatesSub : ∀ n d, d ∈ datesOf (es.filter isDutyRow) n → d ∈ datesOf es n := by
    intro n d hd
    rcases mem_datesOf.mp hd with ⟨e, he, hn, hdt⟩
    exact mem_datesOf.mpr ⟨e, (List.mem_filter.mp he).1, hn, hdt⟩
  have hdatesNone : ∀ n d, d ∈ datesOf es n → d ∉ datesOf (es.filter isDutyRow) n →
      sessionFor es n d = none := by
    intro n d _ hnot
    rw [sessionFor_eq_none_iff]
    by_contra hcon
    push_neg at hcon
    rcases hcon with ⟨hOn, _⟩
    rcases List.exists_mem_of_ne_nil _ hOn with ⟨e, he⟩
    rcases List.mem_filter.mp he with ⟨heMem, hePred⟩
    have hname : e.name = n := by
      have := hePred
      simp only [Bool.and_eq_true, decide_eq_true_eq] at this
      exact this.1.1
    have hdate : e.date = d := by
      have := hePred
      simp only [Bool.and_eq_true, decide_eq_true_eq] at this
      exact this.1.2
    have hstat : e.status = "DutyOn" := by
      have := hePred
      simp only [Bool.and_eq_true, decide_eq_true_eq] at this
      exact this.2
    exact hnot (mem_datesOf.mpr ⟨e, List.mem_filter.mpr ⟨heMem, by simp [isDutyRow, hstat]⟩,
      hname, hdate⟩)
  have hstep2 : ∀ n, n ∈ namesOf es →
      (datesOf es n).filterMap (fun d => sessionFor es n d) =
      (datesOf (es.filter isDutyRow) n).filterMap (fun d => sessionFor es n d) := by
    intro n _
    exact filterMap_eq_of_sorted_subset (fun h1 h2 => dateLe_antisymm h1 h2)
      (datesOf es n) (datesOf (es.filter isDutyRow) n) _
      (datesOf_pairwise es n) (datesOf_pairwise _ n)
      (datesOf_nodup es n) (datesOf_nodup _ n)
      (hdatesSub n) (hdatesNone n)
  have hnamesSub : ∀ n, n ∈ namesOf (es.filter isDutyRow) → n ∈ namesOf es := by
    intro n hn
    rcases mem_namesOf.mp hn with ⟨e, he, hname⟩
    exact mem_namesOf.mpr ⟨e, (List.mem_filter.mp he).1, hname⟩
  have hnamesNil : ∀ n, n ∈ namesOf es → n ∉ namesOf (es.filter isDutyRow) →
      (datesOf es n).filterMap (fun d => sessionFor es n d) = [] := by
    intro n _ hnot
    apply filterMap_eq_nil_of
    intro d _
    rw [sessionFor_eq_none_iff]
    by_contra hcon
    push_neg at hcon
    rcases hcon with ⟨hOn, _⟩
    rcases List.exists_mem_of_ne_nil _ hOn with ⟨e, he⟩
    rcases List.mem_filter.mp he with ⟨heMem, hePred⟩
    simp only [Bool.and_eq_true, decide_eq_true_eq] at hePred
    exact hnot (mem_namesOf.mpr ⟨e, List.mem_filter.mpr
      ⟨heMem, by simp [isDutyRow, hePred.2]⟩, hePred.1.1⟩)
  calc (namesOf (es.filter isDutyRow)).flatMap
        (fun n => (datesOf (es.filter isDutyRow) n).filterMap
          (fun d => sessionFor (es.filter isDutyRow) n d))
      = (namesOf (es.filter isDutyRow)).flatMap
        (fun n => (datesOf (es.filter isDutyRow) n).filterMap
          (fun d => sessionFor es n d)) := flatMap_congr (fun n _ => hstep1 n)
    _ = (namesOf (es.filter isDutyRow)).flatMap
        (fun n => (datesOf es n).filterMap (fun d => sessionFor es n d)) := by
        apply flatMap_congr
        intro n hn
        exact (hstep2 n (hnamesSub n hn)).symm
    _ = (namesOf es).flatMap
        (fun n => (datesOf es n).filterMap (fun d => sessionFor es n d)) := by
        refine (flatMap_eq_of_sorted_subset (fun h1 h2 => strLe_antisymm h1 h2)
          (namesOf es) (namesOf (es.filter isDutyRow)) _
          (namesOf_pairwise es) (namesOf_pairwise _)
          (namesOf_nodup es) (namesOf_nodup _)
          hnamesSub ?_).symm
        intro n hn hnot
        exact hnamesNil n hn hnot

/-! ## Counting lemmas -/

theorem filter_split_length (l : List α) (p : α → Bool) :
    (l.filter p).length + (l.filter (fun x => !(p x))).length = l.length := by
  induction l with
  | nil => rfl
  | cons a t ih =>
    rw [List.filter_cons, List.filter_cons]
    cases h : p a <;> simp only [h, Bool.not_true, Bool.not_false, if_pos, if_neg,
      Bool.false_eq_true, ite_true, ite_false, List.length_cons] <;> omega

theorem sum_map_succ_at {ds : List α} {a0 : α} [DecidableEq α]
    (hnd : ds.Nodup) (ha : a0 ∈ ds) (f g : α → Nat)
    (hfg : ∀ x ∈ ds, g x = if x = a0 then f x + 1 else f x) :
    (ds.map g).sum = (ds.map f).sum + 1 := by
  induction ds with
  | nil => simp at ha
  | cons b t ih =>
    rcases List.nodup_cons.mp hnd with ⟨hbt, hndt⟩
    simp only [List.map_cons, List.sum_cons]
    rcases List.mem_cons.mp ha with rfl | hat
    · rw [hfg a0 (List.mem_cons_self a0 t), if_pos rfl]
      have ht : ∀ x ∈ t, g x = f x := by
        intro x hx
        rw [hfg x (List.mem_cons.mpr (Or.inr hx)), if_neg (fun hxb : x = a0 => hbt (hxb ▸ hx))]
      have : t.map g = t.map f := List.map_congr_left ht
      rw [this]
      omega
    · rw [hfg b (List.mem_cons_self b t), if_neg (fun hba : b = a0 => hbt (hba.symm ▸ hat))]
      have := ih hndt hat (fun x hx => hfg x (List.mem_cons.mpr (Or.inr hx)))
      omega

/-- The per-date groups partition the event list. -/
theorem sum_group_lengths (es : List Event) (ds : List Date)
    (hnd : ds.Nodup) (hcover : ∀ e ∈ es, e.date ∈ ds) :
    (ds.map (fun d => (es.filter (fun e => decide (e.date = d))).length)).sum = es.length := by
  induction es with
  | nil =>
    rw [List.sum_eq_zero]
    · rfl
    · intro x hx
      rcases List.mem_map.mp hx with ⟨d, _, rfl⟩
      rfl
  | cons e t ih =>
    have hg : ∀ d ∈ ds,
        ((e :: t).filter (fun x => decide (x.date = d))).length =
          if d = e.date then (t.filter (fun x => decide (x.date = d))).length + 1
          else (t.filter (fun x => decide (x.date = d))).length := by
      intro d _
      rw [List.filter_cons]
      by_cases hd : e.date = d
      · rw [if_pos (by simpa using hd), if_pos hd.symm]
        rfl
      · rw [if_neg (by simpa using hd), if_neg (fun h => hd h.symm)]
    rw [sum_map_succ_at hnd (hcover e (List.mem_cons_self e t)) _ _ hg,
      ih (fun x hx => hcover x (List.mem_cons.mpr (Or.inr hx)))]
    rfl

theorem datesAll_nodup (es : List Event) : (datesAll es).Nodup :=
  ((sortLe_perm dateLe _).nodup_iff).mpr (List.nodup_dedup _)

theorem mem_datesAll {es : List Event} {d : Date} :
    d ∈ datesAll es ↔ ∃ e ∈ es, e.date = d := by
  unfold datesAll
  rw [(sortLe_perm dateLe _).mem_iff, List.mem_dedup, List.mem_map]

/-- When every status is one of the two recognised values, the two
per-status counts of a date group add up to the group size. -/
theorem group_status_split (es : List Event) (d : Date)
    (hbin : ∀ e ∈ es, e.status = "DutyOn" ∨ e.status = "DutyOff") :
    ((es.filter (fun e => decide (e.date = d))).filter
        (fun e => decide (e.status = "DutyOn"))).length +
      ((es.filter (fun e => decide (e.date = d))).filter
        (fun e => decide (e.status = "DutyOff"))).length =
      (es.filter (fun e => decide (e.date = d))).length := by
  have hcongr : (es.filter (fun e => decide (e.date = d))).filter
      (fun e => decide (e.status = "DutyOff")) =
      (es.filter (fun e => decide (e.date = d))).filter
      (fun e => !(decide (e.status = "DutyOn"))) := by
    apply List.filter_congr
    intro e he
    have hmem : e ∈ es := (List.mem_filter.mp he).1
    rcases hbin e hmem with h | h <;> simp [h]
  rw [hcongr]
  exact filter_split_length _ _

/-! ## Loader lemmas -/

theorem loadEvents_error_of_badTs :
    ∀ rows : List RawRow, (∃ r ∈ rows, parseTimestamp r.datetime = none) →
      ∃ msg, loadEvents rows = .error (.parseErr msg) := by
  intro rows
  induction rows with
  | nil => rintro ⟨r, hr, _⟩; simp at hr
  | cons r rows ih =>
    rintro ⟨r', hr', hbad⟩
    cases hp : parseTimestamp r.datetime with
    | none =>
      refine ⟨r.datetime, ?_⟩
      unfold loadEvents parseRow
      rw [hp]
    | some v =>
      have hr'mem : r' ∈ rows := by
        rcases List.mem_cons.mp hr' with rfl | h
        · rw [hp] at hbad; simp at hbad
        · exact h
      rcases ih ⟨r', hr'mem, hbad⟩ with ⟨msg, hmsg⟩
      refine ⟨msg, ?_⟩
      unfold loadEvents parseRow
      rw [hp, hmsg]

theorem loadEvents_ok_of_goodTs :
    ∀ rows : List RawRow, (∀ r ∈ rows, parseTimestamp r.datetime ≠ none) →
      ∃ evs, loadEvents rows = .ok evs ∧ evs.length = rows.length := by
  intro rows
  induction rows with
  | nil => intro _; exact ⟨[], rfl, rfl⟩
  | cons r rows ih =>
    intro hgood
    cases hp : parseTimestamp r.datetime with
    | none => exact absurd hp (hgood r (List.mem_cons_self r rows))
    | some v =>
      rcases ih (fun x hx => hgood x (List.mem_cons.mpr (Or.inr hx))) with ⟨evs, hevs, hlen⟩
      refine ⟨⟨r.id, r.name, r.status, v.1, v.2⟩ :: evs, ?_, by simp [hlen]⟩
      unfold loadEvents parseRow
      rw [hp, hevs]

/-! ## Rounding bridge: the integer rounding implements `round` on ℚ -/

/-- The spec-level value written to Work_Hours: the exact duration
rounded to two decimal places. -/
def roundTo2 (q : ℚ) : ℚ := ((round (q * 100) : ℤ) : ℚ) / 100

/-- Modelled from the spec: "duration ... truncated to two decimal
places" (truncation toward zero), the alternative reading that the
code does not implement. -/
def truncTo2 (q : ℚ) : ℚ :=
  if 0 ≤ q then ((⌊q * 100⌋ : ℤ) : ℚ) / 100 else ((⌈q * 100⌉ : ℤ) : ℚ) / 100

theorem roundC_eq_round (a : ℤ) (b : ℕ) (hb : 0 < b) :
    roundC a b = round ((a : ℚ) / (b : ℚ)) := by
  have hbq : (b : ℚ) ≠ 0 := by positivity
  rw [round_eq]
  have harg : (a : ℚ) / (b : ℚ) + 1 / 2 =
      (((2 * a + b : ℤ) : ℚ)) / (((2 * b : ℕ)) : ℚ) := by
    push_cast
    field_simp
    ring
  rw [harg, Rat.floor_intCast_div_natCast]
  unfold roundC
  congr 1

theorem workHoursCenti_eq_round (onSec offSec : Nat) :
    workHoursCenti onSec offSec =
      round ((((offSec : Int) - (onSec : Int) : Int) : ℚ) / 3600 * 100) := by
  unfold workHoursCenti
  rw [roundC_eq_round _ 3600 (by norm_num)]
  congr 1
  push_cast
  ring

/-- Every emitted Work_Hours value is the exact duration rounded (not
truncated) to two decimal places. -/
theorem workHours_rounded {es : List Event} {s : Session} (hs : s ∈ workHours es) :
    (s.workHoursC : ℚ) / 100 = roundTo2 (sessionRawHours s) := by
  rcases mem_workHours.mp hs with ⟨n, _, d, _, hsf⟩
  rw [sessionFor_workHoursC hsf, workHoursCenti_eq_round]
  unfold roundTo2 sessionRawHours
  norm_num

/-- The earliest DutyOn second-of-day of a (name, date) group. -/
def isEarliestOn (es : List Event) (n : String) (d : Date) (t : Nat) : Prop :=
  (∃ e ∈ onRows es n d, e.sec = t) ∧ ∀ e ∈ onRows es n d, t ≤ e.sec

/-- The latest DutyOff second-of-day of a (name, date) group. -/
def isLatestOff (es : List Event) (n : String) (d : Date) (t : Nat) : Prop :=
  (∃ e ∈ offRows es n d, e.sec = t) ∧ ∀ e ∈ offRows es n d, e.sec ≤ t

/-- An on-side witness row puts its (name, date) in the group. -/
theorem mem_onRows_of (es : List Event) {e : Event} {n : String} {d : Date}
    (he : e ∈ es) (hn : e.name = n) (hd : e.date = d) (hst : e.status = "DutyOn") :
    e ∈ onRows es n d :=
  List.mem_filter.mpr ⟨he, by simp [hn, hd, hst]⟩

theorem mem_offRows_of (es : List Event) {e : Event} {n : String} {d : Date}
    (he : e ∈ es) (hn : e.name = n) (hd : e.date = d) (hst : e.status = "DutyOff") :
    e ∈ offRows es n d :=
  List.mem_filter.mpr ⟨he, by simp [hn, hd, hst]⟩

/-- One-sided groups produce no session. -/
theorem no_session_of_one_sided {es : List Event} {n : String} {d : Date}
    (hone : onRows es n d = [] ∨ offRows es n d = []) :
    ∀ s ∈ workHours es, ¬(s.name = n ∧ s.date = d) := by
  rintro s hs ⟨hn, hd⟩
  rcases mem_workHours.mp hs with ⟨n', _, d', _, hsf⟩
  obtain ⟨h1, h2⟩ := sessionFor_name_date hsf
  have hn' : n' = n := h1 ▸ hn
  have hd' : d' = d := h2 ▸ hd
  rw [hn', hd'] at hsf
  rw [(sessionFor_eq_none_iff es n d).mpr hone] at hsf
  exact Option.noConfusion hsf

theorem scheduleRowFor_workDuration_na {es : List Event} {n : String} {d : Date}
    (hone : onRows es n d = [] ∨ offRows es n d = []) :
    (scheduleRowFor es n d).workDuration = "N/A" := by
  unfold scheduleRowFor
  rcases hone with h | h
  · have hnil : dutyOns es n d = [] := (h ▸ dutyOns_perm_onRows es n d).eq_nil
    simp only [hnil, List.head?_nil]
  · have hnil : dutyOffs es n d = [] := (h ▸ dutyOffs_perm_offRows es n d).eq_nil
    simp only [hnil, List.getLast?_nil]
    cases (dutyOns es n d).head? <;> rfl

theorem scheduleRowFor_totalRecords (es : List Event) (n : String) (d : Date) :
    (scheduleRowFor es n d).totalRecords = (groupRows es n d).length :=
  (dateGroup_perm_groupRows es n d).length_eq

/-- A per-date per-status count is unchanged by appending a row with a
different status. -/
theorem filter_status_append (es : List Event) (e : Event) (d : Date) (st : String)
    (hne : e.status ≠ st) :
    (((es ++ [e]).filter (fun x => decide (x.date = d))).filter
        (fun x => decide (x.status = st))).length =
      ((es.filter (fun x => decide (x.date = d))).filter
        (fun x => decide (x.status = st))).length := by
  rw [List.filter_append, List.filter_append]
  by_cases hd : e.date = d
  · simp [List.filter_cons, hd, hne]
  · simp [List.filter_cons, hd]

theorem uniqueEmployees_append (es : List Event) (e : Event) :
    uniqueEmployees (es ++ [e]) =
      if e.name ∈ es.map (·.name) then uniqueEmployees es else uniqueEmployees es + 1 := by
  unfold uniqueEmployees
  rw [List.map_append, ← List.card_toFinset, ← List.card_toFinset, List.toFinset_append]
  have hsingle : (List.map (fun x => x.name) [e]).toFinset = {e.name} := by
    simp
  rw [hsingle]
  by_cases h : e.name ∈ es.map (·.name)
  · rw [if_pos h]
    congr 1
    rw [Finset.union_comm, ← Finset.insert_eq]
    exact Finset.insert_eq_self.mpr (List.mem_toFinset.mpr h)
  · rw [if_neg h]
    rw [Finset.union_comm, ← Finset.insert_eq,
      Finset.card_insert_of_not_mem (fun hc => h (List.mem_toFinset.mp hc))]

/-- The daily-summary status total equals the row count when every
status is one of the two recognised values. -/
theorem dailySummary_total_binary (es : List Event)
    (hbin : ∀ e ∈ es, e.status = "DutyOn" ∨ e.status = "DutyOff") :
    dailySummaryStatusTotal es = es.length := by
  unfold dailySummaryStatusTotal dailySummary
  rw [List.map_map]
  have hpt : ∀ d ∈ datesAll es,
      ((fun r : DailySummary => r.totalDutyOn + r.totalDutyOff) ∘
        (fun d =>
          let g := es.filter (fun e => decide (e.date = d))
          (⟨d, (g.filter (fun e => decide (e.status = "DutyOn"))).length,
            (g.filter (fun e => decide (e.status = "DutyOff"))).length,
            ((g.map (·.name)).dedup).length⟩ : DailySummary))) d =
      (es.filter (fun e => decide (e.date = d))).length :=
    fun d _ => group_status_split es d hbin
  rw [List.map_congr_left hpt]
  exact sum_group_lengths es (datesAll es) (datesAll_nodup es)
    (fun e he => mem_datesAll.mpr ⟨e, he, rfl⟩)

/-- A one-row input with only a DutyOn event. -/
def esOnly : List Event := [⟨1, "Alice", "DutyOn", d0, 28800⟩]

/-! ## Claims -/

/-- C1: for every (name, date) group containing at least one DutyOn and
at least one DutyOff event, exactly one DutySession is emitted, and its
duration in hours is (latest DutyOff second − earliest DutyOn second)
divided by 3600. -/
theorem claimC1 (es : List Event) (n : String) (d : Date)
    (hOn : ∃ e ∈ es, e.name = n ∧ e.date = d ∧ e.status = "DutyOn")
    (hOff : ∃ e ∈ es, e.name = n ∧ e.date = d ∧ e.status = "DutyOff") :
    ∃ s onT offT, (workHours es).filter (sessionKey n d) = [s] ∧
      isEarliestOn es n d onT ∧ isLatestOff es n d offT ∧
      s.dutyOnSec = onT ∧ s.dutyOffSec = offT ∧
      sessionRawHours s = ((offT : ℚ) - (onT : ℚ)) / 3600 := by
  obtain ⟨eOn, heOn, hnOn, hdOn, hsOn⟩ := hOn
  obtain ⟨eOff, heOff, hnOff, hdOff, hsOff⟩ := hOff
  have hOnMem : eOn ∈ onRows es n d := mem_onRows_of es heOn hnOn hdOn hsOn
  have hOffMem : eOff ∈ offRows es n d := mem_offRows_of es heOff hnOff hdOff hsOff
  have hOnNe : onRows es n d ≠ [] := List.ne_nil_of_mem hOnMem
  have hOffNe : offRows es n d ≠ [] := List.ne_nil_of_mem hOffMem
  have hsome : ∃ s, sessionFor es n d = some s := by
    cases hsf : sessionFor es n d with
    | none =>
      rcases (sessionFor_eq_none_iff es n d).mp hsf with h | h
      · exact absurd h hOnNe
      · exact absurd h hOffNe
    | some s => exact ⟨s, rfl⟩
  obtain ⟨s, hsf⟩ := hsome
  have hnMem : n ∈ namesOf es := mem_namesOf.mpr ⟨eOn, heOn, hnOn⟩
  have hdMem : d ∈ datesOf es n := mem_datesOf.mpr ⟨eOn, heOn, hnOn, hdOn⟩
  refine ⟨s, s.dutyOnSec, s.dutyOffSec, workHours_filter_single hnMem hdMem hsf,
    ⟨(sessionFor_onSec_min hsf).1, (sessionFor_onSec_min hsf).2⟩,
    ⟨(sessionFor_offSec_max hsf).1, (sessionFor_offSec_max hsf).2⟩, rfl, rfl, ?_⟩
  unfold sessionRawHours
  push_cast
  ring

/-- Witness for C1 at the worked examples: Alice 08:00:00/17:30:00
gives one session of 9.50 hours, and DutyOn rows 08:00:00 and 08:05:00
with DutyOff 17:00:00 give one session using 08:00:00, of 9.00
hours. -/
theorem claimC1_witness :
    (∃ s onT offT, (workHours esPair).filter (sessionKey "Alice" d0) = [s] ∧
      isEarliestOn esPair "Alice" d0 onT ∧ isLatestOff esPair "Alice" d0 offT ∧
      s.dutyOnSec = onT ∧ s.dutyOffSec = offT ∧
      sessionRawHours s = ((offT : ℚ) - (onT : ℚ)) / 3600) ∧
    workHours esPair = [⟨"Alice", d0, 28800, 63000, 950⟩] ∧
    sessionRawHours ⟨"Alice", d0, 28800, 63000, 950⟩ = 19 / 2 ∧
    workHours esTwoOn = [⟨"Alice", d0, 28800, 61200, 900⟩] ∧
    sessionRawHours ⟨"Alice", d0, 28800, 61200, 900⟩ = 9 := by
  refine ⟨claimC1 esPair "Alice" d0
      ⟨⟨1, "Alice", "DutyOn", d0, 28800⟩, by decide, rfl, rfl, rfl⟩
      ⟨⟨2, "Alice", "DutyOff", d0, 63000⟩, by decide, rfl, rfl, rfl⟩,
    by decide, ?_, by decide, ?_⟩
  · norm_num [sessionRawHours]
  · norm_num [sessionRawHours]

/-- C2 as stated is false: the written Work_Hours value 8.01 of the
16:00:30 example differs from the truncation 8.00 of the exact
duration. -/
theorem claimC2_counterexample :
    workHours esTrunc = [⟨"Alice", d0, 28800, 57630, 801⟩] ∧
    ((801 : ℤ) : ℚ) / 100 ≠
      truncTo2 (sessionRawHours ⟨"Alice", d0, 28800, 57630, 801⟩) := by
  constructor
  · decide
  · have hq : sessionRawHours (⟨"Alice", d0, 28800, 57630, 801⟩ : Session) =
        ((28830 : ℤ) : ℚ) / ((3600 : ℕ) : ℚ) := by
      norm_num [sessionRawHours]
    have hq0 : (0 : ℚ) ≤ sessionRawHours (⟨"Alice", d0, 28800, 57630, 801⟩ : Session) := by
      rw [hq]; positivity
    have hmul : sessionRawHours (⟨"Alice", d0, 28800, 57630, 801⟩ : Session) * 100 =
        ((2883000 : ℤ) : ℚ) / ((3600 : ℕ) : ℚ) := by
      rw [hq]; push_cast; ring
    unfold truncTo2
    rw [if_pos hq0, hmul, Rat.floor_intCast_div_natCast]
    have hdiv : (2883000 : ℤ) / ((3600 : ℕ) : ℤ) = 800 := by decide
    rw [hdiv]
    norm_num

/-- C2 amended: for every emitted session whose exact duration is not
an exact tie between adjacent hundredths of an hour (duration seconds
not ≡ 18 mod 36), the Work_Hours value written is the exact duration
in hours rounded to the nearest two-decimal value, not truncated.  The
tie exclusion delimits where the integer-rounding embedding provably
coincides with Python's float `round(hours, 2)`: at an exact tie the
program writes one of the two adjacent hundredths as dictated by the
binary double, which the shallow embedding does not determine. -/
theorem claimC2_amended (es : List Event) (s : Session) (hs : s ∈ workHours es)
    (htie : ((s.dutyOffSec : ℤ) - (s.dutyOnSec : ℤ)) % 36 ≠ 18) :
    (s.workHoursC : ℚ) / 100 = roundTo2 (sessionRawHours s) :=
  workHours_rounded hs

/-- Witness for the amended C2 at the 16:00:30 example, whose 28830 s
duration is not a rounding tie (28830 mod 36 = 30). -/
theorem claimC2_amended_witness :
    ((⟨"Alice", d0, 28800, 57630, 801⟩ : Session) ∈ workHours esTrunc) ∧
    (((57630 : ℤ) - (28800 : ℤ)) % 36 ≠ 18) ∧
    ((801 : ℤ) : ℚ) / 100 =
      roundTo2 (sessionRawHours ⟨"Alice", d0, 28800, 57630, 801⟩) :=
  ⟨by decide, by decide,
    claimC2_amended esTrunc ⟨"Alice", d0, 28800, 57630, 801⟩ (by decide) (by decide)⟩

/-- C3: a (name, date) group with only one status side present yields
no session, is not an error, still appears in the presence aggregates,
and its work duration is surfaced as "N/A". -/
theorem claimC3 (es : List Event) (n : String) (d : Date)
    (hgrp : groupRows es n d ≠ [])
    (hone : onRows es n d = [] ∨ offRows es n d = []) :
    (∀ s ∈ workHours es, ¬(s.name = n ∧ s.date = d)) ∧
    n ∈ namesOf es ∧
    (∃ r ∈ scheduleDataFor es n, r.date = d ∧ r.workDuration = "N/A" ∧
      r.totalRecords = (groupRows es n d).length ∧ 0 < r.totalRecords) := by
  obtain ⟨e, he⟩ := List.exists_mem_of_ne_nil _ hgrp
  rcases List.mem_filter.mp he with ⟨heMem, hePred⟩
  simp only [Bool.and_eq_true, decide_eq_true_eq] at hePred
  obtain ⟨hname, hdate⟩ := hePred
  have hnMem : n ∈ namesOf es := mem_namesOf.mpr ⟨e, heMem, hname⟩
  have hdMem : d ∈ datesOf es n := mem_datesOf.mpr ⟨e, heMem, hname, hdate⟩
  refine ⟨no_session_of_one_sided hone, hnMem,
    scheduleRowFor es n d, List.mem_map_of_mem _ hdMem, rfl,
    scheduleRowFor_workDuration_na hone, scheduleRowFor_totalRecords es n d, ?_⟩
  rw [scheduleRowFor_totalRecords es n d]
  exact List.length_pos.mpr hgrp

/-- Witness for C3 at a one-row DutyOn-only input. -/
theorem claimC3_witness :
    (∀ s ∈ workHours esOnly, ¬(s.name = "Alice" ∧ s.date = d0)) ∧
    "Alice" ∈ namesOf esOnly ∧
    (∃ r ∈ scheduleDataFor esOnly "Alice", r.date = d0 ∧ r.workDuration = "N/A" ∧
      r.totalRecords = (groupRows esOnly "Alice" d0).length ∧ 0 < r.totalRecords) :=
  claimC3 esOnly "Alice" d0 (by decide) (by decide)

/-- C4 as stated is false: a row whose status is neither DutyOn nor
DutyOff is counted in the total but in neither per-status count. -/
theorem claimC4_counterexample :
    dailySummaryStatusTotal [eBreak] = 0 ∧ totalRecords [eBreak] = 1 ∧ (0 : Nat) ≠ 1 :=
  ⟨by decide, rfl, by decide⟩

/-- C4 amended: when every row's status is DutyOn or DutyOff, the
per-status aggregation counts summed over all dates equal the total
number of input rows. -/
theorem claimC4_amended (es : List Event)
    (hbin : ∀ e ∈ es, e.status = "DutyOn" ∨ e.status = "DutyOff") :
    dailySummaryStatusTotal es = totalRecords es :=
  dailySummary_total_binary es hbin

/-- Witness for the amended C4 at the two-row example. -/
theorem claimC4_amended_witness :
    dailySummaryStatusTotal esPair = totalRecords esPair ∧
      dailySummaryStatusTotal esPair = 2 :=
  ⟨claimC4_amended esPair (by decide), by decide⟩

/-- C5 as stated is false: a row with an unrecognized status value and
a parseable timestamp loads without error. -/
theorem claimC5_counterexample :
    loadEvents [rowBreak] = .ok [eBreak] ∧
      rowBreak.status ≠ "DutyOn" ∧ rowBreak.status ≠ "DutyOff" :=
  ⟨rfl, by decide, by decide⟩

/-- C5 amended: the loader fails with a parse error exactly on inputs
containing an unparseable timestamp; status values are never
validated, so any statuses load when all timestamps parse. -/
theorem claimC5_amended :
    (∀ rows : List RawRow, (∃ r ∈ rows, parseTimestamp r.datetime = none) →
      ∃ msg, loadEvents rows = .error (.parseErr msg)) ∧
    (∀ rows : List RawRow, (∀ r ∈ rows, parseTimestamp r.datetime ≠ none) →
      ∃ evs, loadEvents rows = .ok evs ∧ evs.length = rows.length) :=
  ⟨loadEvents_error_of_badTs, loadEvents_ok_of_goodTs⟩

/-- Witness for the amended C5: a bad timestamp fails, a foreign
status succeeds. -/
theorem claimC5_amended_witness :
    (∃ msg, loadEvents [⟨1, "Alice", "DutyOn", "notadate"⟩] = .error (.parseErr msg)) ∧
    (∃ evs, loadEvents [rowBreak] = .ok evs ∧ evs.length = 1) :=
  ⟨claimC5_amended.1 [⟨1, "Alice", "DutyOn", "notadate"⟩]
      ⟨⟨1, "Alice", "DutyOn", "notadate"⟩, by decide, by decide⟩,
    claimC5_amended.2 [rowBreak] (by decide)⟩

/-- C6: with no input files, both loaders fail with the NotFound
condition and produce no partial results. -/
theorem claimC6 :
    htmlLoadData [] = .error .notFound ∧ lookupLoadData [] = none :=
  ⟨rfl, rfl⟩

/-- C7: every aggregation applied to a zero-row input produces an
empty result rather than failing. -/
theorem claimC7 :
    dailySummary [] = [] ∧ employeeSummary [] = [] ∧ workHours [] = [] ∧
      avgWorkHoursByName [] = [] ∧ datesAll [] = [] ∧ namesOf [] = [] :=
  ⟨rfl, rfl, rfl, rfl, rfl, rfl⟩

/-- C8: a group whose latest DutyOff precedes its earliest DutyOn
still yields a session, with a negative Work_Hours value: the
reconstructor never guards against negative durations. -/
theorem claimC8 :
    workHours esNeg = [⟨"Alice", d0, 61200, 28800, -900⟩] ∧
      (⟨"Alice", d0, 61200, 28800, -900⟩ : Session).workHoursC < 0 ∧
      sessionRawHours ⟨"Alice", d0, 61200, 28800, -900⟩ = -9 := by
  refine ⟨by decide, by decide, ?_⟩
  norm_num [sessionRawHours]

/-- C9: a row with a status other than DutyOn/DutyOff is retained and
counted in the total-record and unique-employee aggregates, but
contributes to no per-status count and to no DutySession. -/
theorem claimC9 (es : List Event) (e : Event)
    (hOn : e.status ≠ "DutyOn") (hOff : e.status ≠ "DutyOff") :
    totalRecords (es ++ [e]) = totalRecords es + 1 ∧
    e.name ∈ ((es ++ [e]).map (·.name)).dedup ∧
    uniqueEmployees (es ++ [e]) =
      (if e.name ∈ es.map (·.name) then uniqueEmployees es else uniqueEmployees es + 1) ∧
    dutyOnRecords (es ++ [e]) = dutyOnRecords es ∧
    dutyOffRecords (es ++ [e]) = dutyOffRecords es ∧
    (∀ (d : Date) (st : String), st = "DutyOn" ∨ st = "DutyOff" →
      (((es ++ [e]).filter (fun x => decide (x.date = d))).filter
          (fun x => decide (x.status = st))).length =
        ((es.filter (fun x => decide (x.date = d))).filter
          (fun x => decide (x.status = st))).length) ∧
    workHours (es ++ [e]) = workHours es := by
  refine ⟨?_, ?_, uniqueEmployees_append es e, ?_, ?_, ?_, ?_⟩
  · simp [totalRecords]
  · simp only [List.mem_dedup, List.mem_map]
    exact ⟨e, by simp, rfl⟩
  · simp [dutyOnRecords, List.filter_append, List.filter_cons, hOn]
  · simp [dutyOffRecords, List.filter_append, List.filter_cons, hOff]
  · intro d st hst
    refine filter_status_append es e d st ?_
    rcases hst with rfl | rfl
    · exact hOn
    · exact hOff
  · have h1 : (es ++ [e]).filter isDutyRow = es.filter isDutyRow := by
      rw [List.filter_append]
      simp [List.filter_cons, isDutyRow, hOn, hOff]
    calc workHours (es ++ [e]) = workHours ((es ++ [e]).filter isDutyRow) :=
          (workHours_filter_duty _).symm
      _ = workHours (es.filter isDutyRow) := by rw [h1]
      _ = workHours es := workHours_filter_duty es

/-- Witness for C9: appending a Break row to the Alice example. -/
theorem claimC9_witness :
    totalRecords (esPair ++ [eBreak]) = totalRecords esPair + 1 ∧
      workHours (esPair ++ [eBreak]) = workHours esPair ∧
      dutyOnRecords (esPair ++ [eBreak]) = dutyOnRecords esPair :=
  ⟨(claimC9 esPair eBreak (by decide) (by decide)).1,
    (claimC9 esPair eBreak (by decide) (by decide)).2.2.2.2.2.2,
    (claimC9 esPair eBreak (by decide) (by decide)).2.2.2.1⟩

/-- C10: the reconstructed sessions are invariant under any
permutation of the input rows. -/
theorem claimC10 (es es' : List Event) (h : List.Perm es es') :
    workHours es = workHours es' :=
  workHours_perm_congr h

/-- Witness for C10: swapping the two rows of the Alice example. -/
theorem claimC10_witness :
    workHours [⟨2, "Alice", "DutyOff", d0, 63000⟩, ⟨1, "Alice", "DutyOn", d0, 28800⟩] =
      workHours esPair :=
  claimC10 [⟨2, "Alice", "DutyOff", d0, 63000⟩, ⟨1, "Alice", "DutyOn", d0, 28800⟩]
    esPair (by decide)

end DutySched
